import Mathlib

/-!
Verification development for the renamer plugin's protected-range
substitution engine (`src/helpers.ts` of the repository, whose functions
are duplicated at top level in `src/index.ts`).

Texts are modelled as `List Char`.  JavaScript regular expressions used by
the code are all alternations of literal strings or literal prefixes
followed by a greedy run of one character class, so each is embedded as an
explicit matching function with exactly the semantics of the source
pattern (leftmost scan, alternatives tried in order, greedy runs,
ASCII-only case folding for the `i` flag, which agrees with JS
canonicalisation for the ASCII-only patterns involved).  `String.replace`
inserts the replacement literally (replacement strings containing `$`
substitution patterns are outside the model).  Scanning functions take an
explicit fuel argument (always instantiated with the text length) so that
they are structurally recursive and evaluate inside the kernel.
-/

namespace Renamer

abbrev Str := List Char

/-- ASCII lower-casing of a single character (the explicit A-Z table),
the case folding relevant to the `i` flag on the ASCII-only patterns of
the source and to the ASCII scope of `toLowerCase` used by the variant
generator (the spec limits case folding to ASCII). -/
def asciiLower (c : Char) : Char :=
  match c with
  | 'A' => 'a' | 'B' => 'b' | 'C' => 'c' | 'D' => 'd' | 'E' => 'e'
  | 'F' => 'f' | 'G' => 'g' | 'H' => 'h' | 'I' => 'i' | 'J' => 'j'
  | 'K' => 'k' | 'L' => 'l' | 'M' => 'm' | 'N' => 'n' | 'O' => 'o'
  | 'P' => 'p' | 'Q' => 'q' | 'R' => 'r' | 'S' => 's' | 'T' => 't'
  | 'U' => 'u' | 'V' => 'v' | 'W' => 'w' | 'X' => 'x' | 'Y' => 'y'
  | 'Z' => 'z' | _ => c

/-- ASCII upper-casing of a single character (the explicit a-z table). -/
def asciiUpper (c : Char) : Char :=
  match c with
  | 'a' => 'A' | 'b' => 'B' | 'c' => 'C' | 'd' => 'D' | 'e' => 'E'
  | 'f' => 'F' | 'g' => 'G' | 'h' => 'H' | 'i' => 'I' | 'j' => 'J'
  | 'k' => 'K' | 'l' => 'L' | 'm' => 'M' | 'n' => 'N' | 'o' => 'O'
  | 'p' => 'P' | 'q' => 'Q' | 'r' => 'R' | 's' => 'S' | 't' => 'T'
  | 'u' => 'U' | 'v' => 'V' | 'w' => 'W' | 'x' => 'X' | 'y' => 'Y'
  | 'z' => 'Z' | _ => c

def lowerStr (s : Str) : Str := s.map asciiLower

def upperStr (s : Str) : Str := s.map asciiUpper

/-- The backtick character. -/
def btick : Char := Char.ofNat 96

/-- The double-quote character. -/
def dquote : Char := Char.ofNat 34

/-- The single-quote character. -/
def squote : Char := Char.ofNat 39

/-- The JavaScript `\s` character class. -/
def jsSpace (c : Char) : Bool :=
  decide (c = Char.ofNat 9) || decide (c = Char.ofNat 10) ||
  decide (c = Char.ofNat 11) || decide (c = Char.ofNat 12) ||
  decide (c = Char.ofNat 13) || decide (c = ' ') ||
  decide (c = Char.ofNat 160) || decide (c = Char.ofNat 5760) ||
  (decide (Char.ofNat 8192 ≤ c) && decide (c ≤ Char.ofNat 8202)) ||
  decide (c = Char.ofNat 8232) || decide (c = Char.ofNat 8233) ||
  decide (c = Char.ofNat 8239) || decide (c = Char.ofNat 8287) ||
  decide (c = Char.ofNat 12288) || decide (c = Char.ofNat 65279)

/-- The character class `[^\s`"')\]]` shared by the URL and path patterns:
anything that is not whitespace, a backtick, a quote, a closing
parenthesis or a closing square bracket. -/
def isTok (c : Char) : Bool :=
  !(jsSpace c || decide (c = btick) || decide (c = dquote) ||
    decide (c = squote) || decide (c = ')') || decide (c = ']'))

/-- The JavaScript word-character class `[A-Za-z0-9_]`, used by `\b`. -/
def isWordChar (c : Char) : Bool :=
  (decide ('a' ≤ c) && decide (c ≤ 'z')) ||
  (decide ('A' ≤ c) && decide (c ≤ 'Z')) ||
  (decide ('0' ≤ c) && decide (c ≤ '9')) || decide (c = '_')

def isAsciiLetter (c : Char) : Bool :=
  (decide ('a' ≤ c) && decide (c ≤ 'z')) ||
  (decide ('A' ≤ c) && decide (c ≤ 'Z'))

/-- A compiled matcher: an ordered alternation of literal strings, with an
optional case-insensitivity flag.  This models both `OPENCODE_REGEX =
/opencode/gi` and the output of `buildVariantRegex` (whose escaping step
makes every alternative match exactly its literal text). -/
structure Matcher where
  alts : List Str
  ci : Bool
deriving DecidableEq

/-- Does the literal `p` match at the start of `s`, folding case when `ci`
is set (both sides are folded, as in JS canonicalisation)? -/
def prefMatch (ci : Bool) : Str → Str → Bool
  | [], _ => true
  | _ :: _, [] => false
  | p :: ps, c :: cs =>
    decide ((if ci then asciiLower c else c) = (if ci then asciiLower p else p))
      && prefMatch ci ps cs

/-- The match attempt of a matcher at the start of `s`: the first
alternative (in order) that matches wins, and consumes its own length. -/
def matchAt (m : Matcher) (s : Str) : Option Nat :=
  (m.alts.find? (fun a => prefMatch m.ci a s)).map List.length

def opencodeStr : Str := ("opencode").toList

/-- `const OPENCODE_REGEX = /opencode/gi` (src/helpers.ts:65). -/
def OPENCODE_REGEX : Matcher := ⟨[opencodeStr], true⟩

/-- One global-replace scan, as performed by `text.replace(regex,
replacement)` with a global regex: at each position, if the regex matches,
emit the replacement and skip the match, else copy one character.  `fuel`
is instantiated with the text length by the wrapper. -/
def replaceGo (m : Matcher) (r : Str) : Nat → Str → Str
  | _, [] => []
  | 0, s => s
  | fuel + 1, c :: cs =>
    match matchAt m (c :: cs) with
    | some n =>
      if n = 0 then r ++ c :: replaceGo m r fuel cs
      else r ++ replaceGo m r fuel ((c :: cs).drop n)
    | none => c :: replaceGo m r fuel cs

/-- `replaceOpencode` (src/helpers.ts:71-78): empty text is returned
unchanged, otherwise a global replace with the supplied regex, defaulting
to `OPENCODE_REGEX`. -/
def replaceOpencode (text replacement : Str) (regex : Option Matcher) : Str :=
  if text.isEmpty then text
  else replaceGo (regex.getD OPENCODE_REGEX) replacement text.length text

/-- Length of the greedy run `[^\s`"')\]]+` at the start of `s`. -/
def runLen (s : Str) : Nat := (s.takeWhile isTok).length

def httpsStr : Str := ("https://").toList

def httpStr : Str := ("http://").toList

/-- The match attempt of `URL_REGEX = /https?:\/\/[^\s`"')\]]+/gi`
(src/helpers.ts:67) at the start of `s`: a case-insensitive `http://` or
`https://` prefix (the optional `s` is tried greedily, exactly as the
regex engine does) followed by a non-empty greedy token run. -/
def urlMatchAt (s : Str) : Option Nat :=
  if prefMatch true httpsStr s then
    (if runLen (s.drop 8) = 0 then none else some (8 + runLen (s.drop 8)))
  else if prefMatch true httpStr s then
    (if runLen (s.drop 7) = 0 then none else some (7 + runLen (s.drop 7)))
  else none

/-- `\b` before a word character: satisfied at the start of the text or
after a non-word character. -/
def noWordBefore : Option Char → Bool
  | none => true
  | some c => !isWordChar c

/-- First alternative of `PATH_REGEX` (src/helpers.ts:68-69):
`\b[a-zA-Z]:\\[^\s`"')\]]+`.  `pv` is the character preceding the match
position. -/
def driveAt (pv : Option Char) (s : Str) : Option Nat :=
  match s with
  | a :: b :: c :: rest =>
    if noWordBefore pv && isAsciiLetter a && decide (b = ':') && decide (c = '\\') then
      (if runLen rest = 0 then none else some (3 + runLen rest))
    else none
  | _ => none

/-- Second alternative of `PATH_REGEX`: `~\/[^\s`"')\]]+`. -/
def homeAt (s : Str) : Option Nat :=
  match s with
  | a :: b :: rest =>
    if decide (a = '~') && decide (b = '/') then
      (if runLen rest = 0 then none else some (2 + runLen rest))
    else none
  | _ => none

/-- Third alternative of `PATH_REGEX`: `\.\.?\/[^\s`"')\]]+` (the greedy
optional second dot backtracks exactly as encoded here). -/
def dotAt (s : Str) : Option Nat :=
  match s with
  | a :: b :: c :: rest =>
    if decide (a = '.') && decide (b = '.') && decide (c = '/') then
      (if runLen rest = 0 then none else some (3 + runLen rest))
    else if decide (a = '.') && decide (b = '/') then
      (if runLen (c :: rest) = 0 then none else some (2 + runLen (c :: rest)))
    else none
  | _ => none

/-- The match attempt of `PATH_REGEX` at the start of `s`, alternatives in
source order. -/
def pathMatchAt (pv : Option Char) (s : Str) : Option Nat :=
  match driveAt pv s with
  | some n => some n
  | none =>
    match homeAt s with
    | some n => some n
    | none => dotAt s

/-- The `text.matchAll(regex)` scan: record each match as a half-open
index range and resume after it, else advance one position.  `pv` is the
character before the current position (needed by `\b`), `i` the current
absolute index. -/
def scanGo (f : Option Char → Str → Option Nat) :
    Nat → Nat → Option Char → Str → List (Nat × Nat)
  | 0, _, _, _ => []
  | _, _, _, [] => []
  | fuel + 1, i, pv, c :: cs =>
    match f pv (c :: cs) with
    | some n =>
      if n = 0 then scanGo f fuel (i + 1) (some c) cs
      else
        (i, i + n) ::
          scanGo f fuel (i + n) (((c :: cs).take n).getLast?) ((c :: cs).drop n)
    | none => scanGo f fuel (i + 1) (some c) cs

/-- Ranges of all `URL_REGEX` matches (src/helpers.ts:145-149). -/
def urlRanges (t : Str) : List (Nat × Nat) :=
  scanGo (fun _ s => urlMatchAt s) t.length 0 none t

/-- Ranges of all `PATH_REGEX` matches (src/helpers.ts:151-155). -/
def pathRanges (t : Str) : List (Nat × Nat) :=
  scanGo pathMatchAt t.length 0 none t

/-- `[Math.max(0, range[0]), Math.max(0, range[1])]`
(src/helpers.ts:112-115). -/
def clampR (x : Int × Int) : Int × Int := (max 0 x.1, max 0 x.2)

/-- The JS `sort((a, b) => a[0] - b[0])`: a stable ascending sort by range
start.  `List.insertionSort` with the non-strict key order is stable and
sorted, hence extensionally equal to the JS sort. -/
def sortRanges (l : List (Int × Int)) : List (Int × Int) :=
  List.insertionSort (fun a b => a.1 ≤ b.1) l

/-- The fold inside `mergeRanges` (src/helpers.ts:88-98): `last` is the
range currently being grown; a new range starting at or before `last`'s
end extends it, otherwise `last` is emitted. -/
def mergeLoop : (Int × Int) → List (Int × Int) → List (Int × Int)
  | last, [] => [last]
  | last, cur :: rest =>
    if cur.1 ≤ last.2 then mergeLoop (last.1, max last.2 cur.2) rest
    else last :: mergeLoop cur rest

/-- `mergeRanges` (src/helpers.ts:80-101). -/
def mergeRanges (ranges : List (Int × Int)) : List (Int × Int) :=
  match sortRanges ranges with
  | [] => []
  | a :: rest => mergeLoop a rest

/-- The sanitisation pipeline of `replaceOutsideRanges`
(src/helpers.ts:110-118): clamp negative offsets to 0, drop ranges with
`end <= start`, sort by start, and merge. -/
def mergedProtectedRanges (ranges : List (Int × Int)) : List (Int × Int) :=
  mergeRanges (sortRanges ((ranges.map clampR).filter (fun r => r.1 < r.2)))

/-- `text.slice(a, b)` for `0 ≤ a ≤ b` (JS slice clamps to the text
length, as `take`/`drop` do). -/
def sliceN (t : Str) (a b : Nat) : Str := (t.drop a).take (b - a)

/-- The copy loop of `replaceOutsideRanges` (src/helpers.ts:120-135):
replace in the gap before each protected range, copy the range verbatim,
and replace in the tail after the last range. -/
def roLoop (t r : Str) (rg : Option Matcher) : Nat → List (Int × Int) → Str
  | cursor, [] =>
    if cursor < t.length then replaceOpencode (t.drop cursor) r rg else []
  | cursor, (s, e) :: rest =>
    (if cursor < s.toNat then replaceOpencode (sliceN t cursor s.toNat) r rg else [])
      ++ sliceN t s.toNat e.toNat ++ roLoop t r rg (max cursor e.toNat) rest

/-- `replaceOutsideRanges` (src/helpers.ts:103-136). -/
def replaceOutsideRanges (t r : Str) (ranges : List (Int × Int))
    (rg : Option Matcher) : Str :=
  if ranges.isEmpty then replaceOpencode t r rg
  else roLoop t r rg 0 (mergedProtectedRanges ranges)

def natRanges (l : List (Nat × Nat)) : List (Int × Int) :=
  l.map (fun p => ((p.1 : Int), (p.2 : Int)))

/-- `replaceExcludingUrlsAndPaths` (src/helpers.ts:138-158): URL match
ranges then path match ranges, protected during replacement. -/
def replaceExcludingUrlsAndPaths (t r : Str) (rg : Option Matcher) : Str :=
  replaceOutsideRanges t r (natRanges (urlRanges t) ++ natRanges (pathRanges t)) rg

/-- `text.split(sep)` for a non-empty separator: scan left to right,
cutting at each (non-overlapping, leftmost) occurrence of `sep`.  `acc`
is the piece currently being accumulated. -/
def splitGo (sep : Str) : Nat → Str → Str → List Str
  | _, acc, [] => [acc]
  | 0, acc, rest => [acc ++ rest]
  | fuel + 1, acc, c :: cs =>
    if sep.isPrefixOf (c :: cs) then
      acc :: splitGo sep fuel [] ((c :: cs).drop sep.length)
    else splitGo sep fuel (acc ++ [c]) cs

def splitOnL (sep : Str) (t : Str) : List Str := splitGo sep t.length [] t

/-- The triple-backtick fence delimiter. -/
def fenceStr : Str := ("```").toList

/-- The single-backtick inline-code delimiter. -/
def tickStr : Str := ("`").toList

/-- `segments.map((segment, index) => index % 2 === 1 ? segment : f(segment))`:
odd-indexed pieces pass through, even-indexed pieces are transformed.
`b` is the parity of the current index (`true` = odd). -/
def mapAlternate (f : Str → Str) : Bool → List Str → List Str
  | _, [] => []
  | b, s :: ss => (if b then s else f s) :: mapAlternate f (!b) ss

/-- `replaceInInlineCodeSegments` (src/helpers.ts:160-172). -/
def replaceInInlineCodeSegments (t r : Str) (rg : Option Matcher) : Str :=
  List.intercalate tickStr
    (mapAlternate (fun seg => replaceExcludingUrlsAndPaths seg r rg) false
      (splitOnL tickStr t))

/-- `replaceInText` (src/helpers.ts:174-187): the top-level `replace`
operation.  Empty input is returned unchanged (the non-string guard is
outside a typed model). -/
def replaceInText (t r : Str) (rg : Option Matcher) : Str :=
  if t.isEmpty then t
  else
    List.intercalate fenceStr
      (mapAlternate (fun block => replaceInInlineCodeSegments block r rg) false
        (splitOnL fenceStr t))

/-- `splitIntoWords` (src/helpers.ts:28-34). -/
def splitIntoWords (target : Str) : List Str :=
  if lowerStr target = opencodeStr then [("open").toList, ("code").toList]
  else [target]

/-- `capitalize` (src/helpers.ts:39-40): `w[0].toUpperCase() +
w.slice(1).toLowerCase()`.  On the empty string `w[0]` is `undefined` and
`.toUpperCase()` throws a TypeError, modelled as `none`. -/
def capitalize (w : Str) : Option Str :=
  match w with
  | [] => none
  | c :: cs => some (asciiUpper c :: lowerStr cs)

/-- `lower[0]` under JS string coercion: for an empty word list the
`undefined` value is coerced to the string `"undefined"` by the `+`
concatenation in the source. -/
def camelHead (lower : List Str) : Str :=
  match lower with
  | [] => ("undefined").toList
  | l0 :: _ => l0

def joinSep (sep : Str) (l : List Str) : Str := List.intercalate sep l

/-- `words.map(capitalize)` with the possible TypeError on an empty
sub-word propagated: the first empty word throws. -/
def capitalizeAll : List Str → Option (List Str)
  | [] => some []
  | w :: ws =>
    match capitalize w with
    | none => none
    | some cw =>
      match capitalizeAll ws with
      | none => none
      | some cws => some (cw :: cws)

/-- `generateCaseVariants` (src/helpers.ts:36-58), with the possible
TypeError of `capitalize` on an empty sub-word propagated as `none`.  The
camelCase entry is evaluated first in the source array literal, so its
`capitalize` calls (on the tail) throw before the PascalCase ones. -/
def generateCaseVariants (words : List Str) : Option (List Str) :=
  let lower := words.map lowerStr
  let upper := words.map upperStr
  match capitalizeAll (words.drop 1) with
  | none => none
  | some tailCaps =>
    match capitalizeAll words with
    | none => none
    | some allCaps =>
      some [ camelHead lower ++ tailCaps.flatten
           , allCaps.flatten
           , joinSep (("-").toList) lower
           , joinSep (("_").toList) lower
           , joinSep (("_").toList) upper
           , joinSep (("-").toList) upper
           , joinSep ((".").toList) lower ]

/-- `buildVariantRegex` (src/helpers.ts:60-63): every regex metacharacter
in each variant is escaped, so the compiled global case-sensitive pattern
is the ordered alternation of the literal variants. -/
def buildVariantRegex (variants : List Str) : Matcher := ⟨variants, false⟩

/-- Is there a match of `m` anywhere in the text (JS `text.match(regex)`
truthiness)? -/
def hasMatchGo (m : Matcher) : Nat → Str → Bool
  | _, [] => false
  | 0, _ => false
  | fuel + 1, c :: cs =>
    match matchAt m (c :: cs) with
    | some _ => true
    | none => hasMatchGo m fuel cs

def hasMatch (m : Matcher) (t : Str) : Bool := hasMatchGo m t.length t

/-- Position and length of the first match of `m` in `s`, if any. -/
def firstMatchGo (m : Matcher) : Nat → Str → Option (Nat × Nat)
  | _, [] => none
  | 0, _ => none
  | fuel + 1, c :: cs =>
    match matchAt m (c :: cs) with
    | some n => some (0, n)
    | none => (firstMatchGo m fuel cs).map (fun p => (p.1 + 1, p.2))

/-- `regex.test(t)` for a global regex with scan position `li`
(`lastIndex`): search from `li`; on success `lastIndex` moves to the end
of the match, on failure it is reset to 0. -/
def regexTest (m : Matcher) (t : Str) (li : Nat) : Bool × Nat :=
  match firstMatchGo m (t.drop li).length (t.drop li) with
  | some (q, n) => (true, li + q + n)
  | none => (false, 0)

/-- `updateSessionTitleIfNeeded` (src/index.ts): membership test with the
shared global regex, explicit `lastIndex = 0` reset after a successful
test, then the full replacement pass.  The `lastIndex` of the tested
matcher is threaded explicitly; after the reset, the global replaces
inside `replaceInText` leave it at 0. -/
def updateSessionTitleIfNeeded (title : Option Str) (replacement : Str)
    (rg : Option Matcher) (li : Nat) : Option Str × Nat :=
  match title with
  | none => (none, li)
  | some t =>
    if t.isEmpty then (some t, li)
    else
      let res := regexTest (rg.getD OPENCODE_REGEX) t li
      if res.1 then (some (replaceInText t replacement rg), 0)
      else (some t, res.2)

/-- `u` is a string matched in full by the URL pattern. -/
def urlShaped (u : Str) : Prop := urlMatchAt u = some u.length

/-- `u` is a string matched in full by the path pattern when preceded by
`pv`. -/
def pathShaped (pv : Option Char) (u : Str) : Prop :=
  pathMatchAt pv u = some u.length

/-- The character of `t` directly before position `p` (`none` at the
start), as threaded through the `matchAll` scan. -/
def prevCh (t : Str) (p : Nat) : Option Char :=
  if p = 0 then none else t.get? (p - 1)

/-- Alternating concatenation of gap pieces and protected pieces:
`g₀ ++ p₁ ++ g₁ ++ ⋯`. -/
def altJoin : List Str → List Str → Str
  | [], _ => []
  | g :: _, [] => g
  | g :: gs, p :: ps => g ++ p ++ altJoin gs ps

/-- Case-insensitive replace-all of a fixed literal target, written
directly from the amended wording of the default-matcher contract:
substring matching, no word-boundary requirement. -/
def ciReplaceAllGo (target r : Str) : Nat → Str → Str
  | _, [] => []
  | 0, s => s
  | fuel + 1, c :: cs =>
    if (lowerStr target).isPrefixOf (lowerStr (c :: cs)) then
      r ++ ciReplaceAllGo target r fuel ((c :: cs).drop target.length)
    else c :: ciReplaceAllGo target r fuel cs

def ciReplaceAll (target t r : Str) : Str := ciReplaceAllGo target r t.length t

def noMatch (m : Matcher) (s : Str) : Bool := !(hasMatch m s)

/-- The gap pieces of a segment relative to a sorted merged range list,
mirroring the cursor walk of `roLoop` (gaps may be empty). -/
def segGaps (t : Str) : Nat → List (Int × Int) → List Str
  | cursor, [] => [t.drop cursor]
  | cursor, (s, e) :: rest =>
    sliceN t cursor s.toNat :: segGaps t (max cursor e.toNat) rest

/-- No match of `m` occurs in any gap of `seg` outside its protected
URL/path ranges. -/
def segClean (m : Matcher) (seg : Str) : Bool :=
  (segGaps seg 0
      (mergedProtectedRanges
        (natRanges (urlRanges seg) ++ natRanges (pathRanges seg)))).all
    (fun g => noMatch m g)

/-- Check `f` on the even-indexed pieces only. -/
def allAlternate (f : Str → Bool) : Bool → List Str → Bool
  | _, [] => true
  | b, s :: ss => (if b then true else f s) && allAlternate f (!b) ss

/-- No match of `m` occurs in any plain-text gap region of `t`: outside
fenced code, outside inline code, and outside protected URL/path
ranges. -/
def gapClean (m : Matcher) (t : Str) : Bool :=
  allAlternate
    (fun block =>
      allAlternate (fun seg => segClean m seg) false (splitOnL tickStr block))
    false (splitOnL fenceStr t)

def gapCleanO (rg : Option Matcher) (t : Str) : Bool :=
  gapClean (rg.getD OPENCODE_REGEX) t

/-- The seven documented case variants of the target word, in source
order. -/
def opencodeVariants : List Str :=
  [ ("openCode").toList, ("OpenCode").toList, ("open-code").toList
  , ("open_code").toList, ("OPEN_CODE").toList, ("OPEN-CODE").toList
  , ("open.code").toList ]

/-! ## Theorems -/

/-- `capitalize` succeeds exactly on non-empty words. -/
theorem capitalize_isSome {w : Str} (h : w ≠ []) : ∃ cw, capitalize w = some cw := by
  cases w with
  | nil => exact absurd rfl h
  | cons c cs => exact ⟨_, rfl⟩

/-- `capitalizeAll` succeeds on a list of non-empty words. -/
theorem capitalizeAll_isSome {ws : List Str} (h : ∀ w ∈ ws, w ≠ []) :
    ∃ cws, capitalizeAll ws = some cws := by
  induction ws with
  | nil => exact ⟨[], rfl⟩
  | cons w ws ih =>
    obtain ⟨cw, hcw⟩ := capitalize_isSome (h w (by simp))
    obtain ⟨cws, hcws⟩ := ih (fun x hx => h x (by simp [hx]))
    exact ⟨cw :: cws, by simp [capitalizeAll, hcw, hcws]⟩

/-- Claim C10: variant generation is total exactly on decompositions with
non-empty parts: on any list of non-empty sub-words
`generateCaseVariants` returns seven strings, but `splitIntoWords ""`
returns `[""]`, whose empty part makes the capitalisation step read the
first character of an empty string and throw, so the pipeline
`generateCaseVariants (splitIntoWords target)` is not error-free on the
empty target word. -/
theorem C10_variant_totality :
    (∀ ws : List Str, (∀ w ∈ ws, w ≠ []) →
      ∃ vs, generateCaseVariants ws = some vs ∧ vs.length = 7)
    ∧ splitIntoWords [] = [[]]
    ∧ generateCaseVariants (splitIntoWords []) = none := by
  refine ⟨?_, by decide, by decide⟩
  intro ws h
  obtain ⟨cws, hcws⟩ := @capitalizeAll_isSome (ws.drop 1)
    (fun w hw => h w (List.mem_of_mem_drop hw))
  obtain ⟨aws, haws⟩ := @capitalizeAll_isSome ws h
  refine ⟨[ camelHead (ws.map lowerStr) ++ cws.flatten, aws.flatten
          , joinSep (("-").toList) (ws.map lowerStr)
          , joinSep (("_").toList) (ws.map lowerStr)
          , joinSep (("_").toList) (ws.map upperStr)
          , joinSep (("-").toList) (ws.map upperStr)
          , joinSep ((".").toList) (ws.map lowerStr) ], ?_, rfl⟩
  simp only [generateCaseVariants]
  rw [hcws, haws]

/-- Witness for C10 at a concrete decomposition. -/
theorem C10_variant_totality_witness :
    (∃ vs, generateCaseVariants [("ab").toList] = some vs ∧ vs.length = 7)
    ∧ generateCaseVariants (splitIntoWords []) = none :=
  ⟨C10_variant_totality.1 [("ab").toList] (by decide),
   C10_variant_totality.2.2⟩

/-- Claim C7: `generateCaseVariants` on the fixed decomposition
`["open", "code"]` yields exactly the seven documented strings in the
documented order, and the matcher compiled from them by
`buildVariantRegex` matches each of the seven literal forms and rejects
the unrelated string `"openXcode"`, which differs from the separator
variants by a single character. -/
theorem C7_variant_completeness :
    generateCaseVariants [("open").toList, ("code").toList] = some opencodeVariants
    ∧ opencodeVariants =
        [ ("openCode").toList, ("OpenCode").toList, ("open-code").toList
        , ("open_code").toList, ("OPEN_CODE").toList, ("OPEN-CODE").toList
        , ("open.code").toList ]
    ∧ opencodeVariants.all (fun v => hasMatch (buildVariantRegex opencodeVariants) v) = true
    ∧ hasMatch (buildVariantRegex opencodeVariants) (("openXcode").toList) = false := by
  decide

/-- Claim C9: with the compiled variant matcher, replacing in
`"hello open-code"` with the empty replacement string deletes the match
and yields `"hello "`; the empty replacement is accepted (the operation is
total by construction, so nothing is raised). -/
theorem C9_empty_replacement :
    generateCaseVariants (splitIntoWords opencodeStr) = some opencodeVariants
    ∧ replaceInText (("hello open-code").toList) []
        (some (buildVariantRegex opencodeVariants)) = ("hello ").toList := by
  decide

/-- Claim C4 counterexample: the default matcher `/opencode/gi` has no
word-boundary assertions, so on `"opencodes"`, where the target word
occurs only as a proper substring of a longer word, `replace` does not
return the text unchanged: it rewrites it to `"Renamers"`. -/
theorem C4_counterexample :
    replaceInText (("opencodes").toList) (("Renamer").toList) none
        = ("Renamers").toList
    ∧ ("Renamers").toList ≠ ("opencodes").toList := by
  decide

theorem char_beq_eq_decide (a b : Char) : (a == b) = decide (a = b) := by
  by_cases h : a = b <;> simp [h]

/-- Case-insensitive literal matching coincides with prefix comparison of
ASCII-lowered strings. -/
theorem prefMatch_true_iff (p s : Str) :
    prefMatch true p s = (lowerStr p).isPrefixOf (lowerStr s) := by
  induction p generalizing s with
  | nil => cases s <;> rfl
  | cons a as ih =>
    cases s with
    | nil => rfl
    | cons c cs =>
      show (decide (asciiLower c = asciiLower a) && prefMatch true as cs)
        = ((asciiLower a == asciiLower c) && (lowerStr as).isPrefixOf (lowerStr cs))
      rw [ih cs, char_beq_eq_decide, decide_eq_decide.mpr eq_comm]

/-- The default matcher attempts exactly a case-insensitive match of the
literal target word, of length 8. -/
theorem matchAt_OPENCODE (s : Str) :
    matchAt OPENCODE_REGEX s
      = if prefMatch true opencodeStr s then some 8 else none := by
  unfold matchAt OPENCODE_REGEX
  simp only [List.find?_cons]
  cases h : prefMatch true opencodeStr s
  · simp [h]
  · simp [h, opencodeStr]

/-- The global-replace scan with the default matcher is the direct
case-insensitive replace-all of the literal target. -/
theorem replaceGo_eq_ciReplaceAllGo (r : Str) (fuel : Nat) (s : Str) :
    replaceGo OPENCODE_REGEX r fuel s = ciReplaceAllGo opencodeStr r fuel s := by
  induction fuel generalizing s with
  | zero => cases s <;> rfl
  | succ fuel ih =>
    cases s with
    | nil => rfl
    | cons c cs =>
      rw [replaceGo, ciReplaceAllGo, matchAt_OPENCODE, prefMatch_true_iff]
      by_cases h : (lowerStr opencodeStr).isPrefixOf (lowerStr (c :: cs)) = true
      · rw [if_pos h, if_pos h]
        show (if (8 : Nat) = 0 then r ++ c :: replaceGo OPENCODE_REGEX r fuel cs
              else r ++ replaceGo OPENCODE_REGEX r fuel (List.drop 8 (c :: cs)))
            = r ++ ciReplaceAllGo opencodeStr r fuel
                (List.drop (List.length opencodeStr) (c :: cs))
        rw [if_neg (by decide), ih]
        rfl
      · rw [if_neg h, if_neg h]
        show c :: replaceGo OPENCODE_REGEX r fuel cs
            = c :: ciReplaceAllGo opencodeStr r fuel cs
        rw [ih]

/-- The first output range of `mergeLoop` starts where `last` starts, and
its end only ever grows. -/
theorem mergeLoop_head (l : List (Int × Int)) :
    ∀ last : Int × Int, ∃ e tl,
      mergeLoop last l = (last.1, e) :: tl ∧ last.2 ≤ e := by
  induction l with
  | nil => exact fun last => ⟨last.2, [], rfl, le_refl _⟩
  | cons cur rest ih =>
    intro last
    by_cases h : cur.1 ≤ last.2
    · obtain ⟨e, tl, heq, hle⟩ := ih (last.1, max last.2 cur.2)
      exact ⟨e, tl, by rw [mergeLoop, if_pos h]; exact heq,
        le_trans (le_max_left _ _) hle⟩
    · exact ⟨last.2, mergeLoop cur rest, by rw [mergeLoop, if_neg h], le_refl _⟩

/-- Invariants of the merge fold: starting from a valid `last` range that
starts at or before every remaining (sorted, valid) range, the output
consists of valid ranges, strictly ascending by start, with a strict gap
between consecutive ranges. -/
theorem mergeLoop_invariant (l : List (Int × Int)) :
    ∀ last : Int × Int,
      0 ≤ last.1 → last.1 < last.2 →
      (∀ r ∈ l, 0 ≤ r.1 ∧ r.1 < r.2) →
      (∀ r ∈ l, last.1 ≤ r.1) →
      List.Sorted (fun a b => a.1 ≤ b.1) l →
      (∀ r ∈ mergeLoop last l, 0 ≤ r.1 ∧ r.1 < r.2)
      ∧ List.Chain' (fun a b => a.1 < b.1) (mergeLoop last l)
      ∧ List.Chain' (fun a b => a.2 < b.1) (mergeLoop last l) := by
  induction l with
  | nil =>
    intro last h0 hlt _ _ _
    refine ⟨?_, ?_, ?_⟩ <;> simp [mergeLoop]
    exact ⟨h0, hlt⟩
  | cons cur rest ih =>
    intro last h0 hlt hvalid hge hsort
    rw [List.sorted_cons] at hsort
    by_cases h : cur.1 ≤ last.2
    · rw [mergeLoop, if_pos h]
      refine ih (last.1, max last.2 cur.2) h0
        (lt_of_lt_of_le hlt (le_max_left _ _))
        (fun r hr => hvalid r (List.mem_cons_of_mem _ hr))
        (fun r hr => hge r (List.mem_cons_of_mem _ hr)) hsort.2
    · rw [mergeLoop, if_neg h]
      push_neg at h
      obtain ⟨hv, hc1, hc2⟩ := ih cur
        (le_trans h0 (le_of_lt (lt_of_lt_of_le hlt (le_of_lt h))))
        (hvalid cur (List.mem_cons_self _ _)).2
        (fun r hr => hvalid r (List.mem_cons_of_mem _ hr))
        (fun r hr => hsort.1 r hr) hsort.2
      obtain ⟨e, tl, heq, _⟩ := mergeLoop_head rest cur
      refine ⟨?_, ?_, ?_⟩
      · intro r hr
        rcases List.mem_cons.mp hr with hr | hr
        · exact hr ▸ ⟨h0, hlt⟩
        · exact hv r hr
      · rw [List.chain'_cons']
        exact ⟨fun b hb => by
          rw [heq] at hb; simp at hb
          rw [← hb]; exact lt_of_lt_of_le (lt_of_lt_of_le hlt (le_of_lt h)) (le_refl _), hc1⟩
      · rw [List.chain'_cons']
        exact ⟨fun b hb => by
          rw [heq] at hb; simp at hb
          rw [← hb]; exact h, hc2⟩

/-- Every range surviving the clamp-and-filter step is valid. -/
theorem filtered_valid (ranges : List (Int × Int)) :
    ∀ r ∈ (ranges.map clampR).filter (fun r => decide (r.1 < r.2)),
      0 ≤ r.1 ∧ r.1 < r.2 := by
  intro r hr
  rw [List.mem_filter] at hr
  obtain ⟨hmem, hlt⟩ := hr
  rw [List.mem_map] at hmem
  obtain ⟨x, _, hx⟩ := hmem
  refine ⟨?_, by simpa using hlt⟩
  rw [← hx]
  exact le_max_left _ _

/-- `sortRanges` output is sorted by start and preserves membership. -/
theorem sortRanges_sorted (l : List (Int × Int)) :
    List.Sorted (fun a b => a.1 ≤ b.1) (sortRanges l) := by
  haveI : IsTotal (Int × Int) (fun a b => a.1 ≤ b.1) := ⟨fun a b => le_total a.1 b.1⟩
  haveI : IsTrans (Int × Int) (fun a b => a.1 ≤ b.1) := ⟨fun _ _ _ h1 h2 => le_trans h1 h2⟩
  exact List.sorted_insertionSort _ l

theorem mem_sortRanges {l : List (Int × Int)} {r : Int × Int} :
    r ∈ sortRanges l ↔ r ∈ l :=
  (List.perm_insertionSort _ l).mem_iff

/-- Validity, ascending starts and strict gaps for the sanitised merged
range list. -/
theorem mergedRanges_props (ranges : List (Int × Int)) :
    (∀ r ∈ mergedProtectedRanges ranges, 0 ≤ r.1 ∧ r.1 < r.2)
    ∧ List.Chain' (fun a b => a.1 < b.1) (mergedProtectedRanges ranges)
    ∧ List.Chain' (fun a b => a.2 < b.1) (mergedProtectedRanges ranges) := by
  unfold mergedProtectedRanges mergeRanges
  have hvalid : ∀ r ∈ sortRanges (sortRanges
      ((ranges.map clampR).filter (fun r => decide (r.1 < r.2)))),
      0 ≤ r.1 ∧ r.1 < r.2 := by
    intro r hr
    exact filtered_valid ranges r (mem_sortRanges.mp (mem_sortRanges.mp hr))
  have hsort := sortRanges_sorted (sortRanges
      ((ranges.map clampR).filter (fun r => decide (r.1 < r.2))))
  cases hL : sortRanges (sortRanges
      ((ranges.map clampR).filter (fun r => decide (r.1 < r.2)))) with
  | nil => simp
  | cons a rest =>
    rw [hL] at hvalid hsort
    rw [List.sorted_cons] at hsort
    have hav := hvalid a (List.mem_cons_self _ _)
    exact mergeLoop_invariant rest a hav.1 hav.2
      (fun r hr => hvalid r (List.mem_cons_of_mem _ hr))
      (fun r hr => hsort.1 r hr) hsort.2

/-- Claim C5: the interval-merge pipeline used by `replaceOutsideRanges`
never raises (it is a total function by construction): ranges with
`end <= start` are dropped, negative offsets are clamped to 0, and the
result is strictly ascending by start with every adjacent pair separated
by a strict gap (`r_i.end < r_{i+1}.start`): touching or overlapping
ranges are coalesced.  Holds for every input list, in arbitrary order. -/
theorem C5_merge_invariants (ranges : List (Int × Int)) :
    (∀ r ∈ mergedProtectedRanges ranges, 0 ≤ r.1 ∧ r.1 < r.2)
    ∧ List.Chain' (fun a b => a.1 < b.1) (mergedProtectedRanges ranges)
    ∧ List.Chain' (fun a b => a.2 < b.1) (mergedProtectedRanges ranges) :=
  mergedRanges_props ranges

/-- Witness for C5 at a concrete malformed input: negative offsets,
inverted and overlapping ranges. -/
theorem C5_merge_invariants_witness :
    ((0 : Int) ≤ (0, (14 : Int)).1 ∧ ((0, (14 : Int)) : Int × Int).1 < (0, (14 : Int)).2)
    ∧ List.Chain' (fun a b : Int × Int => a.2 < b.1)
        (mergedProtectedRanges [(-3, 5), (4, 4), (2, 9), (12, 14), (9, 12)]) :=
  ⟨(C5_merge_invariants [(-3, 5), (4, 4), (2, 9), (12, 14), (9, 12)]).1
      (0, 14) (by decide),
   (C5_merge_invariants [(-3, 5), (4, 4), (2, 9), (12, 14), (9, 12)]).2.2⟩

/-- With valid ranges, the adjacent-gap chain extends to all pairs. -/
theorem chain_gap_pairwise :
    ∀ R : List (Int × Int), (∀ x ∈ R, x.1 < x.2) →
      List.Chain' (fun a b : Int × Int => a.2 < b.1) R →
      List.Pairwise (fun a b : Int × Int => a.2 < b.1) R := by
  intro R
  induction R with
  | nil => intro _ _; exact List.Pairwise.nil
  | cons x l ih =>
    intro hv hc
    rw [List.chain'_cons'] at hc
    have hpl := ih (fun y hy => hv y (List.mem_cons_of_mem _ hy)) hc.2
    rw [List.pairwise_cons]
    refine ⟨?_, hpl⟩
    intro y hy
    cases l with
    | nil => cases hy
    | cons z l' =>
      have hxz : x.2 < z.1 := hc.1 z rfl
      rcases List.mem_cons.mp hy with rfl | hy'
      · exact hxz
      · have hz2 : z.2 < y.1 := (List.pairwise_cons.mp hpl).1 y hy'
        have hzv : z.1 < z.2 := hv z (by simp)
        omega

/-- Splitting a drop of the text at a later index. -/
theorem drop_eq_sliceN_append (t : Str) {a b : Nat} (h : a ≤ b) :
    t.drop a = sliceN t a b ++ t.drop b := by
  unfold sliceN
  conv_lhs => rw [← List.take_append_drop (b - a) (t.drop a)]
  rw [List.drop_drop]
  congr 2
  omega

/-- Shape of the `replaceOutsideRanges` copy loop: relative to a valid,
pairwise-gapped range list starting at or after the cursor, the suffix of
the text from the cursor decomposes into alternating gap and protected
pieces, the protected pieces are the literal slices of the text, and the
loop's output is the same alternation with every gap replaced. -/
theorem roLoop_shape (t r : Str) (m : Option Matcher) :
    ∀ (R : List (Int × Int)) (cursor : Nat),
      (∀ x ∈ R, 0 ≤ x.1 ∧ x.1 < x.2) →
      List.Pairwise (fun a b : Int × Int => a.2 < b.1) R →
      (∀ x ∈ R, (cursor : Int) ≤ x.1) →
      ∃ gs, gs.length = R.length + 1
        ∧ altJoin gs (R.map (fun x => sliceN t x.1.toNat x.2.toNat)) = t.drop cursor
        ∧ roLoop t r m cursor R
            = altJoin (gs.map (fun g => replaceOpencode g r m))
                (R.map (fun x => sliceN t x.1.toNat x.2.toNat)) := by
  intro R
  induction R with
  | nil =>
    intro cursor _ _ _
    refine ⟨[t.drop cursor], rfl, rfl, ?_⟩
    show roLoop t r m cursor [] = replaceOpencode (t.drop cursor) r m
    rw [roLoop]
    by_cases hc : cursor < t.length
    · rw [if_pos hc]
    · rw [if_neg hc, List.drop_eq_nil_of_le (by omega)]
      rfl
  | cons x rest ih =>
    rcases x with ⟨s, e⟩
    intro cursor hval hpw hcur
    have hv := hval (s, e) (List.mem_cons_self _ _)
    have hcs : (cursor : Int) ≤ s := hcur (s, e) (List.mem_cons_self _ _)
    have h1 : cursor ≤ s.toNat := by omega
    have h2 : s.toNat ≤ e.toNat := by
      have := hv.1; have := hv.2; omega
    have h3 : cursor ≤ e.toNat := le_trans h1 h2
    rw [List.pairwise_cons] at hpw
    obtain ⟨gs', hlen, hjoin, hout⟩ := ih e.toNat
      (fun y hy => hval y (List.mem_cons_of_mem _ hy)) hpw.2
      (fun y hy => by
        have hgap := hpw.1 y hy
        simp only at hgap
        omega)
    refine ⟨sliceN t cursor s.toNat :: gs', by simp [hlen], ?_, ?_⟩
    · show sliceN t cursor s.toNat ++ sliceN t s.toNat e.toNat
          ++ altJoin gs' (rest.map (fun x => sliceN t x.1.toNat x.2.toNat))
          = t.drop cursor
      rw [hjoin, List.append_assoc, ← drop_eq_sliceN_append t h2,
        ← drop_eq_sliceN_append t h1]
    · rw [roLoop]
      have hmax : max cursor e.toNat = e.toNat := max_eq_right h3
      have hgap : (if cursor < s.toNat
            then replaceOpencode (sliceN t cursor s.toNat) r m else [])
          = replaceOpencode (sliceN t cursor s.toNat) r m := by
        by_cases hc : cursor < s.toNat
        · rw [if_pos hc]
        · rw [if_neg hc]
          have hsc : s.toNat - cursor = 0 := by omega
          show ([] : Str) = replaceOpencode (sliceN t cursor s.toNat) r m
          unfold sliceN
          rw [hsc, List.take_zero]
          rfl
      rw [hgap, hmax, hout]
      rfl

/-- Claim C3: for every text and every collection of supplied protected
ranges — overlapping ones included — the text decomposes into alternating
gap and protected pieces whose concatenation is exactly the input (every
character appears exactly once: nothing is emitted twice and nothing is
skipped), the protected pieces being the literal slices of the merged
ranges; the output of `replaceOutsideRanges` is the same alternation with
each gap passed through the matcher replacement.  In particular, on a
text whose only target-word occurrences lie inside overlapping protected
ranges (a path match nested inside a URL match), `replace` returns the
text unchanged, as shown by the concrete conjunct. -/
theorem C3_exactly_once_decomposition (t r : Str) (m : Option Matcher)
    (ranges : List (Int × Int)) :
    (∃ gs, gs.length = (mergedProtectedRanges ranges).length + 1
      ∧ altJoin gs ((mergedProtectedRanges ranges).map
          (fun x => sliceN t x.1.toNat x.2.toNat)) = t
      ∧ replaceOutsideRanges t r ranges m
          = altJoin (gs.map (fun g => replaceOpencode g r m))
              ((mergedProtectedRanges ranges).map
                (fun x => sliceN t x.1.toNat x.2.toNat)))
    ∧ replaceOutsideRanges (("Visit https://opencode.ai/docs for more").toList)
        (("Renamer").toList) [(6, 29), (12, 29)] none
        = ("Visit https://opencode.ai/docs for more").toList := by
  refine ⟨?_, by decide⟩
  by_cases h : ranges.isEmpty
  · have hr : ranges = [] := by simpa using h
    subst hr
    exact ⟨[t], rfl, rfl, rfl⟩
  · have props := mergedRanges_props ranges
    have hpw := chain_gap_pairwise _ (fun x hx => (props.1 x hx).2) props.2.2
    obtain ⟨gs, hlen, hjoin, hout⟩ := roLoop_shape t r m
      (mergedProtectedRanges ranges) 0 props.1 hpw
      (fun x hx => by have := (props.1 x hx).1; omega)
    rw [List.drop_zero] at hjoin
    refine ⟨gs, hlen, hjoin, ?_⟩
    rw [replaceOutsideRanges, if_neg (by simpa using h)]
    exact hout

theorem decide_succ_mod_two (i : Nat) :
    decide ((i + 1) % 2 = 1) = !decide (i % 2 = 1) := by
  by_cases h : i % 2 = 1 <;> simp [h, Nat.add_mod] <;> omega

/-- The piece of `mapAlternate` at index `i`: copied verbatim when the
alternating flag at `i` is set, transformed otherwise. -/
theorem mapAlternate_get? (f : Str → Str) :
    ∀ (l : List Str) (b : Bool) (i : Nat),
      (mapAlternate f b l).get? i
        = if xor b (decide (i % 2 = 1)) then l.get? i else (l.get? i).map f := by
  intro l
  induction l with
  | nil => intro b i; cases hb : xor b (decide (i % 2 = 1)) <;> simp [mapAlternate, hb]
  | cons s ss ih =>
    intro b i
    cases i with
    | zero => cases b <;> simp [mapAlternate]
    | succ i =>
      show (mapAlternate f (!b) ss).get? i = _
      rw [ih (!b) i, decide_succ_mod_two]
      cases b <;> cases hd : decide (i % 2 = 1) <;> simp [hd]

/-- `replaceInText` always equals the reassembly of its processed fence
blocks (also on the guarded empty input). -/
theorem replaceInText_eq (t r : Str) (m : Option Matcher) :
    replaceInText t r m
      = List.intercalate fenceStr
          (mapAlternate (fun blk => replaceInInlineCodeSegments blk r m) false
            (splitOnL fenceStr t)) := by
  unfold replaceInText
  by_cases h : t.isEmpty
  · have ht : t = [] := by simpa using h
    subst ht
    rfl
  · rw [if_neg h]

/-- Claim C2: code spans are frame-preserved by `replace`.  The output is
the input's fence-level pieces rejoined with the original ``` delimiters,
with every odd-indexed fence piece (inside fenced code) copied
byte-for-byte; each even fence piece is likewise its tick-level pieces
rejoined with the original ` delimiters, with every odd-indexed tick
piece (inside inline code) copied byte-for-byte.  Hence every target-word
occurrence lying strictly inside a triple-backtick span or single-backtick
span of the input is unchanged, and the delimiter characters themselves
are never altered. -/
theorem C2_code_fence_invariant (t b r : Str) (m : Option Matcher) (i j : Nat) :
    replaceInText t r m
      = List.intercalate fenceStr
          (mapAlternate (fun blk => replaceInInlineCodeSegments blk r m) false
            (splitOnL fenceStr t))
    ∧ replaceInInlineCodeSegments b r m
      = List.intercalate tickStr
          (mapAlternate (fun seg => replaceExcludingUrlsAndPaths seg r m) false
            (splitOnL tickStr b))
    ∧ (i % 2 = 1 →
        (mapAlternate (fun blk => replaceInInlineCodeSegments blk r m) false
            (splitOnL fenceStr t)).get? i = (splitOnL fenceStr t).get? i)
    ∧ (j % 2 = 1 →
        (mapAlternate (fun seg => replaceExcludingUrlsAndPaths seg r m) false
            (splitOnL tickStr b)).get? j = (splitOnL tickStr b).get? j) := by
  refine ⟨replaceInText_eq t r m, rfl, ?_, ?_⟩
  · intro hi
    rw [mapAlternate_get?]
    simp [hi]
  · intro hj
    rw [mapAlternate_get?]
    simp [hj]

/-- Witness for C2: the fenced piece and the inline-code piece of concrete
inputs are returned byte-for-byte. -/
theorem C2_code_fence_invariant_witness :
    (mapAlternate
        (fun blk => replaceInInlineCodeSegments blk (("R").toList) none) false
        (splitOnL fenceStr (("a```opencode```b").toList))).get? 1
      = (splitOnL fenceStr (("a```opencode```b").toList)).get? 1
    ∧ (mapAlternate
        (fun seg => replaceExcludingUrlsAndPaths seg (("R").toList) none) false
        (splitOnL tickStr (("x `opencode` y").toList))).get? 1
      = (splitOnL tickStr (("x `opencode` y").toList)).get? 1 :=
  ⟨(C2_code_fence_invariant (("a```opencode```b").toList) [] (("R").toList)
      none 1 1).2.2.1 (by decide),
   (C2_code_fence_invariant [] (("x `opencode` y").toList) (("R").toList)
      none 1 1).2.2.2 (by decide)⟩

theorem intercalate_one (sep a : Str) : List.intercalate sep [a] = a := by
  simp [List.intercalate]

theorem intercalate_two (sep a b : Str) (l : List Str) :
    List.intercalate sep (a :: b :: l) = a ++ sep ++ List.intercalate sep (b :: l) := by
  simp [List.intercalate, List.intersperse]

/-- A text with no match anywhere is returned unchanged by the replace
scan. -/
theorem replaceGo_no_match (m : Matcher) (r : Str) :
    ∀ (fuel : Nat) (s : Str), hasMatchGo m fuel s = false →
      replaceGo m r fuel s = s := by
  intro fuel
  induction fuel with
  | zero => intro s _; cases s <;> rfl
  | succ fuel ih =>
    intro s h
    cases s with
    | nil => rfl
    | cons c cs =>
      rw [hasMatchGo] at h
      cases hm : matchAt m (c :: cs) with
      | some n => rw [hm] at h; cases h
      | none =>
        rw [hm] at h
        rw [replaceGo, hm, ih cs h]

theorem replaceOpencode_no_match (rg : Option Matcher) (r s : Str)
    (h : noMatch (rg.getD OPENCODE_REGEX) s = true) :
    replaceOpencode s r rg = s := by
  unfold replaceOpencode
  by_cases he : s.isEmpty
  · rw [if_pos he]
  · rw [if_neg he]
    unfold noMatch hasMatch at h
    exact replaceGo_no_match _ r s.length s (by simpa using h)

/-- When every gap is match-free, the copy loop reproduces the text
suffix unchanged. -/
theorem roLoop_clean (t r : Str) (rg : Option Matcher) :
    ∀ (R : List (Int × Int)) (cursor : Nat),
      (∀ x ∈ R, 0 ≤ x.1 ∧ x.1 < x.2) →
      List.Pairwise (fun a b : Int × Int => a.2 < b.1) R →
      (∀ x ∈ R, (cursor : Int) ≤ x.1) →
      (segGaps t cursor R).all (fun g => noMatch (rg.getD OPENCODE_REGEX) g) = true →
      roLoop t r rg cursor R = t.drop cursor := by
  intro R
  induction R with
  | nil =>
    intro cursor _ _ _ hclean
    rw [segGaps] at hclean
    simp only [List.all_cons, List.all_nil, Bool.and_true] at hclean
    rw [roLoop]
    by_cases hc : cursor < t.length
    · rw [if_pos hc]
      exact replaceOpencode_no_match rg r _ hclean
    · rw [if_neg hc, List.drop_eq_nil_of_le (by omega)]
  | cons x rest ih =>
    rcases x with ⟨s, e⟩
    intro cursor hval hpw hcur hclean
    rw [segGaps] at hclean
    simp only [List.all_cons, Bool.and_eq_true] at hclean
    have hv := hval (s, e) (List.mem_cons_self _ _)
    have hcs : (cursor : Int) ≤ s := hcur (s, e) (List.mem_cons_self _ _)
    have h1 : cursor ≤ s.toNat := by omega
    have h2 : s.toNat ≤ e.toNat := by
      have := hv.1; have := hv.2; omega
    have h3 : cursor ≤ e.toNat := le_trans h1 h2
    rw [List.pairwise_cons] at hpw
    have hmax : max cursor e.toNat = e.toNat := max_eq_right h3
    rw [hmax] at hclean
    have hrec := ih e.toNat
      (fun y hy => hval y (List.mem_cons_of_mem _ hy)) hpw.2
      (fun y hy => by
        have hgap := hpw.1 y hy
        simp only at hgap
        omega)
      hclean.2
    rw [roLoop]
    have hgap : (if cursor < s.toNat
          then replaceOpencode (sliceN t cursor s.toNat) r rg else [])
        = sliceN t cursor s.toNat := by
      by_cases hc : cursor < s.toNat
      · rw [if_pos hc]
        exact replaceOpencode_no_match rg r _ hclean.1
      · rw [if_neg hc]
        have hsc : s.toNat - cursor = 0 := by omega
        unfold sliceN
        rw [hsc, List.take_zero]
    rw [hgap, hmax, hrec, List.append_assoc, ← drop_eq_sliceN_append t h2,
      ← drop_eq_sliceN_append t h1]

/-- A segment that is clean outside its protected URL/path ranges is left
unchanged by `replaceExcludingUrlsAndPaths`. -/
theorem replaceExcl_clean (rg : Option Matcher) (r seg : Str)
    (h : segClean (rg.getD OPENCODE_REGEX) seg = true) :
    replaceExcludingUrlsAndPaths seg r rg = seg := by
  unfold replaceExcludingUrlsAndPaths replaceOutsideRanges
  unfold segClean at h
  by_cases he : (natRanges (urlRanges seg) ++ natRanges (pathRanges seg)).isEmpty
  · rw [if_pos he]
    have hempty : natRanges (urlRanges seg) ++ natRanges (pathRanges seg) = [] := by
      simpa using he
    rw [hempty] at h
    have hmerged : mergedProtectedRanges ([] : List (Int × Int)) = [] := rfl
    rw [hmerged, segGaps] at h
    simp only [List.all_cons, List.all_nil, Bool.and_true, List.drop_zero] at h
    exact replaceOpencode_no_match rg r seg h
  · rw [if_neg he]
    have props := mergedRanges_props (natRanges (urlRanges seg) ++ natRanges (pathRanges seg))
    have hpw := chain_gap_pairwise _ (fun x hx => (props.1 x hx).2) props.2.2
    have := roLoop_clean seg r rg
      (mergedProtectedRanges (natRanges (urlRanges seg) ++ natRanges (pathRanges seg))) 0
      props.1 hpw
      (fun x hx => by have := (props.1 x hx).1; omega) h
    rw [this, List.drop_zero]

/-- Alternating map is the identity when every even-position piece is
fixed. -/
theorem mapAlternate_id (f : Str → Str) (clean : Str → Bool)
    (hf : ∀ s, clean s = true → f s = s) :
    ∀ (l : List Str) (b : Bool), allAlternate clean b l = true →
      mapAlternate f b l = l := by
  intro l
  induction l with
  | nil => intro b _; rfl
  | cons s ss ih =>
    intro b h
    rw [allAlternate] at h
    simp only [Bool.and_eq_true] at h
    rw [mapAlternate, ih (!b) h.2]
    cases b with
    | true => rfl
    | false =>
      have : f s = s := hf s (by simpa using h.1)
      rw [if_neg (by simp), this]

theorem splitGo_ne_nil (sep : Str) :
    ∀ (fuel : Nat) (acc t : Str), splitGo sep fuel acc t ≠ [] := by
  intro fuel
  induction fuel with
  | zero =>
    intro acc t
    cases t with
    | nil => simp [splitGo]
    | cons c cs => exact List.cons_ne_nil _ _
  | succ fuel ih =>
    intro acc t
    cases t with
    | nil => simp [splitGo]
    | cons c cs =>
      rw [splitGo]
      by_cases hp : sep.isPrefixOf (c :: cs)
      · rw [if_pos hp]; simp
      · rw [if_neg hp]; exact ih _ _

/-- Splitting and rejoining with the separator restores the text. -/
theorem intercalate_splitGo (sep : Str) :
    ∀ (fuel : Nat) (acc t : Str),
      List.intercalate sep (splitGo sep fuel acc t) = acc ++ t := by
  intro fuel
  induction fuel with
  | zero =>
    intro acc t
    cases t with
    | nil => rw [splitGo, intercalate_one, List.append_nil]
    | cons c cs =>
      show List.intercalate sep [acc ++ (c :: cs)] = acc ++ (c :: cs)
      rw [intercalate_one]
  | succ fuel ih =>
    intro acc t
    cases t with
    | nil => rw [splitGo, intercalate_one, List.append_nil]
    | cons c cs =>
      rw [splitGo]
      by_cases hp : sep.isPrefixOf (c :: cs)
      · rw [if_pos hp]
        obtain ⟨u, hu⟩ := List.isPrefixOf_iff_prefix.mp hp
        have ih2 := ih [] ((c :: cs).drop sep.length)
        cases hL : splitGo sep fuel [] ((c :: cs).drop sep.length) with
        | nil => exact absurd hL (splitGo_ne_nil sep fuel [] _)
        | cons p ps =>
          rw [hL] at ih2
          rw [intercalate_two, ih2, ← hu, List.drop_left]
          simp
      · rw [if_neg hp, ih]
        simp

theorem intercalate_splitOnL (sep t : Str) :
    List.intercalate sep (splitOnL sep t) = t :=
  intercalate_splitGo sep t.length [] t

/-- A text whose plain-text gap regions contain no matcher occurrence is
a fixed point of `replaceInText`. -/
theorem replaceInText_clean (t r : Str) (rg : Option Matcher)
    (h : gapCleanO rg t = true) : replaceInText t r rg = t := by
  rw [replaceInText_eq]
  unfold gapCleanO gapClean at h
  rw [mapAlternate_id _ _ ?_ _ _ h, intercalate_splitOnL]
  intro blk hblk
  unfold replaceInInlineCodeSegments
  rw [mapAlternate_id _ _ ?_ _ _ hblk, intercalate_splitOnL]
  intro seg hseg
  exact replaceExcl_clean rg r seg hseg

/-! ### Character-class and greedy-run facts used by the protection
invariant -/

theorem char_eq_toNat {c d : Char} : c = d ↔ c.toNat = d.toNat := by
  constructor
  · intro h; rw [h]
  · intro h
    apply Char.ext
    apply UInt32.eq_of_toBitVec_eq
    apply BitVec.eq_of_toNat_eq
    exact h

theorem char_le_toNat {c d : Char} : c ≤ d ↔ c.toNat ≤ d.toNat := by
  simp [Char.le_def, UInt32.le_def, BitVec.le_def]
  rfl

theorem tn_la : ('a').toNat = 97 := by decide
theorem tn_lz : ('z').toNat = 122 := by decide
theorem tn_ua : ('A').toNat = 65 := by decide
theorem tn_uz : ('Z').toNat = 90 := by decide
theorem tn_sp : (' ').toNat = 32 := by decide
theorem tn_rp : (')').toNat = 41 := by decide
theorem tn_rb : (']').toNat = 93 := by decide
theorem tn_c9 : (Char.ofNat 9).toNat = 9 := by decide
theorem tn_c10 : (Char.ofNat 10).toNat = 10 := by decide
theorem tn_c11 : (Char.ofNat 11).toNat = 11 := by decide
theorem tn_c12 : (Char.ofNat 12).toNat = 12 := by decide
theorem tn_c13 : (Char.ofNat 13).toNat = 13 := by decide
theorem tn_c34 : (Char.ofNat 34).toNat = 34 := by decide
theorem tn_c39 : (Char.ofNat 39).toNat = 39 := by decide
theorem tn_c96 : (Char.ofNat 96).toNat = 96 := by decide
theorem tn_c160 : (Char.ofNat 160).toNat = 160 := by decide
theorem tn_c5760 : (Char.ofNat 5760).toNat = 5760 := by decide
theorem tn_c8192 : (Char.ofNat 8192).toNat = 8192 := by decide
theorem tn_c8202 : (Char.ofNat 8202).toNat = 8202 := by decide
theorem tn_c8232 : (Char.ofNat 8232).toNat = 8232 := by decide
theorem tn_c8233 : (Char.ofNat 8233).toNat = 8233 := by decide
theorem tn_c8239 : (Char.ofNat 8239).toNat = 8239 := by decide
theorem tn_c8287 : (Char.ofNat 8287).toNat = 8287 := by decide
theorem tn_c12288 : (Char.ofNat 12288).toNat = 12288 := by decide
theorem tn_c65279 : (Char.ofNat 65279).toNat = 65279 := by decide

/-- `isTok` expressed on code points. -/
theorem isTok_toNat (c : Char) :
    isTok c = true ↔
      ¬(c.toNat = 9 ∨ c.toNat = 10 ∨ c.toNat = 11 ∨ c.toNat = 12 ∨
        c.toNat = 13 ∨ c.toNat = 32 ∨ c.toNat = 160 ∨ c.toNat = 5760 ∨
        (8192 ≤ c.toNat ∧ c.toNat ≤ 8202) ∨ c.toNat = 8232 ∨
        c.toNat = 8233 ∨ c.toNat = 8239 ∨ c.toNat = 8287 ∨
        c.toNat = 12288 ∨ c.toNat = 65279 ∨ c.toNat = 96 ∨ c.toNat = 34 ∨
        c.toNat = 39 ∨ c.toNat = 41 ∨ c.toNat = 93) := by
  unfold isTok jsSpace btick dquote squote
  simp only [Bool.not_eq_true', Bool.or_eq_false_iff,
    decide_eq_false_iff_not, Bool.and_eq_false_iff, char_eq_toNat,
    char_le_toNat, tn_sp, tn_rp, tn_rb, tn_c9, tn_c10, tn_c11, tn_c12,
    tn_c13, tn_c34, tn_c39, tn_c96, tn_c160, tn_c5760, tn_c8192, tn_c8202,
    tn_c8232, tn_c8233, tn_c8239, tn_c8287, tn_c12288, tn_c65279,
    decide_eq_true_eq, Nat.not_le]
  omega

theorem isAsciiLetter_toNat (c : Char) :
    isAsciiLetter c = true ↔
      (97 ≤ c.toNat ∧ c.toNat ≤ 122) ∨ (65 ≤ c.toNat ∧ c.toNat ≤ 90) := by
  unfold isAsciiLetter
  simp only [Bool.or_eq_true, Bool.and_eq_true, decide_eq_true_eq,
    char_le_toNat, tn_la, tn_lz, tn_ua, tn_uz]

/-- ASCII letters are token characters. -/
theorem isTok_of_isAsciiLetter {c : Char} (h : isAsciiLetter c = true) :
    isTok c = true := by
  rw [isAsciiLetter_toNat] at h
  rw [isTok_toNat]
  omega

/-- The token class is invariant under ASCII case folding, so a character
whose fold is a token character is itself one. -/
theorem isTok_asciiLower (c : Char) : isTok (asciiLower c) = isTok c := by
  unfold asciiLower
  split <;> rfl

theorem runLen_le : ∀ s : Str, runLen s ≤ s.length := by
  intro s
  induction s with
  | nil => exact Nat.le_refl _
  | cons a as ih =>
    unfold runLen
    rw [List.takeWhile_cons]
    by_cases ha : isTok a = true
    · rw [if_pos ha]
      simpa [runLen] using ih
    · rw [if_neg ha]
      simp

/-- A full-length greedy run means every character is a token
character. -/
theorem all_isTok_of_runLen_eq :
    ∀ s : Str, runLen s = s.length → ∀ c ∈ s, isTok c = true := by
  intro s
  induction s with
  | nil => intro _ c hc; cases hc
  | cons a as ih =>
    intro h c hc
    unfold runLen at h
    rw [List.takeWhile_cons] at h
    cases ha : isTok a with
    | false => rw [ha] at h; simp at h
    | true =>
      rw [ha, if_pos rfl] at h
      simp only [List.length_cons] at h
      rcases List.mem_cons.mp hc with rfl | hc2
      · exact ha
      · exact ih (by simpa [runLen] using h) c hc2

/-- The greedy run over a token-only block extends through it. -/
theorem runLen_append_all :
    ∀ x b : Str, (∀ c ∈ x, isTok c = true) →
      runLen (x ++ b) = x.length + runLen b := by
  intro x
  induction x with
  | nil => intro b _; simp
  | cons a as ih =>
    intro b h
    have ha : isTok a = true := h a (List.mem_cons_self _ _)
    have has := ih b (fun c hc => h c (List.mem_cons_of_mem _ hc))
    unfold runLen at has ⊢
    rw [List.cons_append, List.takeWhile_cons, if_pos ha]
    simp only [List.length_cons]
    omega

/-- A greedy run that stops inside the text stops at a non-token
character. -/
theorem runLen_stop :
    ∀ s : Str, runLen s < s.length →
      ∃ d, s.get? (runLen s) = some d ∧ isTok d = false := by
  intro s
  induction s with
  | nil => intro h; simp [runLen] at h
  | cons a as ih =>
    intro h
    unfold runLen at h ⊢
    rw [List.takeWhile_cons] at h ⊢
    cases ha : isTok a with
    | false =>
      simp only [Bool.false_eq_true, if_false] at h ⊢
      exact ⟨a, rfl, ha⟩
    | true =>
      rw [ha, if_pos rfl] at h
      rw [if_pos rfl]
      simp only [List.length_cons] at h
      have hr : runLen as = (List.takeWhile isTok as).length := rfl
      obtain ⟨d, hd, hdt⟩ := ih (by omega)
      refine ⟨d, ?_, hdt⟩
      simpa [runLen] using hd

/-! ### Pattern structure lemmas -/

theorem prefMatch_length {ci : Bool} :
    ∀ {p s : Str}, prefMatch ci p s = true → p.length ≤ s.length := by
  intro p
  induction p with
  | nil => intro s _; simp
  | cons a as ih =>
    intro s h
    cases s with
    | nil => cases h
    | cons c cs =>
      rw [prefMatch, Bool.and_eq_true] at h
      simpa using ih h.2

/-- Pointwise content of a successful prefix match. -/
theorem prefMatch_get? {ci : Bool} :
    ∀ {p s : Str}, prefMatch ci p s = true →
      ∀ k, k < p.length →
        ∃ c pc, s.get? k = some c ∧ p.get? k = some pc ∧
          (if ci then asciiLower c else c) = (if ci then asciiLower pc else pc) := by
  intro p
  induction p with
  | nil => intro s _ k hk; simp at hk
  | cons a as ih =>
    intro s h k hk
    cases s with
    | nil => cases h
    | cons c cs =>
      rw [prefMatch, Bool.and_eq_true, decide_eq_true_eq] at h
      cases k with
      | zero => exact ⟨c, a, rfl, rfl, h.1⟩
      | succ k =>
        obtain ⟨c2, pc, hc2, hpc, hfold⟩ := ih h.2 k (by simpa using hk)
        exact ⟨c2, pc, hc2, hpc, hfold⟩

theorem prefMatch_append {ci : Bool} :
    ∀ {p s : Str} (b : Str), prefMatch ci p s = true →
      prefMatch ci p (s ++ b) = true := by
  intro p
  induction p with
  | nil => intro s b _; rfl
  | cons a as ih =>
    intro s b h
    cases s with
    | nil => cases h
    | cons c cs =>
      rw [prefMatch, Bool.and_eq_true] at h
      rw [List.cons_append, prefMatch, Bool.and_eq_true]
      exact ⟨h.1, ih b h.2⟩

theorem prefMatch_append_false {ci : Bool} :
    ∀ {p s : Str} (b : Str), prefMatch ci p s = false → p.length ≤ s.length →
      prefMatch ci p (s ++ b) = false := by
  intro p
  induction p with
  | nil => intro s b h _; cases h
  | cons a as ih =>
    intro s b h hlen
    cases s with
    | nil => simp at hlen
    | cons c cs =>
      rw [prefMatch, Bool.and_eq_false_iff] at h
      rw [List.cons_append, prefMatch, Bool.and_eq_false_iff]
      rcases h with h | h
      · exact Or.inl h
      · exact Or.inr (ih b h (by simpa using hlen))

theorem isTok_of_fold {c d : Char} (h : asciiLower c = d)
    (hd : isTok d = true) : isTok c = true := by
  rw [← isTok_asciiLower, h]
  exact hd

/-- Maximality of the greedy run: a token-only occurrence that starts
inside the run cannot outlast the match. -/
theorem run_max_containment {s : Str} {k p : Nat} {u b : Str}
    (hk : k ≤ p) (hpL : p < k + runLen (s.drop k)) (hs : s.drop p = u ++ b)
    (hall : ∀ c ∈ u, isTok c = true) :
    p + u.length ≤ k + runLen (s.drop k) := by
  set R := runLen (s.drop k) with hR
  by_contra hcon
  push_neg at hcon
  have hkp : k ≤ s.length := by
    by_contra hx
    push_neg at hx
    have : s.drop k = [] := List.drop_eq_nil_of_le (by omega)
    rw [this] at hR
    simp [runLen] at hR
    omega
  have hRle : R ≤ s.length - k := by
    have := runLen_le (s.drop k)
    rw [List.length_drop] at this
    omega
  have hlenp : s.length - p = u.length + b.length := by
    have := congrArg List.length hs
    rw [List.length_drop, List.length_append] at this
    exact this
  have hpslen : p ≤ s.length := by
    by_contra hx
    push_neg at hx
    have : s.drop p = [] := List.drop_eq_nil_of_le (by omega)
    rw [this] at hs
    have := congrArg List.length hs
    simp [List.length_append] at this
    omega
  have hLlt : k + R < s.length := by omega
  obtain ⟨d, hd, hdt⟩ := runLen_stop (s.drop k) (by rw [List.length_drop]; omega)
  rw [← hR] at hd
  have hd2 : s.get? (k + R) = some d := by
    rw [← List.get?_drop]
    exact hd
  have hj : k + R = p + (k + R - p) := by omega
  have hd3 : (u ++ b).get? (k + R - p) = some d := by
    rw [← hs, List.get?_drop, ← hj]
    exact hd2
  have hd4 : u.get? (k + R - p) = some d := by
    rw [← hd3]
    exact (List.get?_append (by omega)).symm
  exact absurd (hall d (List.get?_mem hd4)) (by rw [hdt]; simp)

/-- Inversion of a URL match. -/
theorem urlMatchAt_inv {s : Str} {L : Nat} (h : urlMatchAt s = some L) :
    (prefMatch true httpsStr s = true ∧ 1 ≤ runLen (s.drop 8)
      ∧ L = 8 + runLen (s.drop 8))
    ∨ (prefMatch true httpsStr s = false ∧ prefMatch true httpStr s = true
      ∧ 1 ≤ runLen (s.drop 7) ∧ L = 7 + runLen (s.drop 7)) := by
  unfold urlMatchAt at h
  by_cases h8 : prefMatch true httpsStr s = true
  · rw [if_pos h8] at h
    by_cases hr : runLen (s.drop 8) = 0
    · rw [if_pos hr] at h; cases h
    · rw [if_neg hr] at h
      have hL := Option.some.inj h
      exact Or.inl ⟨h8, by omega, hL.symm⟩
  · rw [if_neg h8] at h
    by_cases h7 : prefMatch true httpStr s = true
    · rw [if_pos h7] at h
      by_cases hr : runLen (s.drop 7) = 0
      · rw [if_pos hr] at h; cases h
      · rw [if_neg hr] at h
        have hL := Option.some.inj h
        exact Or.inr ⟨by simpa using h8, h7, by omega, hL.symm⟩
    · rw [if_neg h7] at h; cases h

theorem pat_chars_https : ∀ k, k < 8 →
    (httpsStr.get? k).map asciiLower = httpsStr.get? k
    ∧ Option.all isTok (httpsStr.get? k) = true := by decide

theorem pat_chars_http : ∀ k, k < 7 →
    (httpStr.get? k).map asciiLower = httpStr.get? k
    ∧ Option.all isTok (httpStr.get? k) = true := by decide

/-- A character matched against a self-folded token pattern character is
a token character. -/
theorem url_prefix_tok {pat u : Str} {n : Nat} {c : Char}
    (hpf : prefMatch true pat u = true) (hn : u.get? n = some c)
    (hlt : n < pat.length)
    (hmap : (pat.get? n).map asciiLower = pat.get? n)
    (hall : Option.all isTok (pat.get? n) = true) : isTok c = true := by
  obtain ⟨c2, pc, hc2, hpc, hfold⟩ := prefMatch_get? hpf n hlt
  rw [hn] at hc2
  have hcc : c = c2 := Option.some.inj hc2
  subst hcc
  rw [hpc] at hmap hall
  simp only [Option.map_some', Option.some.injEq] at hmap
  simp only [Option.all_some] at hall
  simp only [if_true] at hfold
  exact isTok_of_fold (hfold.trans hmap) hall

/-- The run part of a URL-shaped string is token-only. -/
theorem url_run_tok {u : Str} {pfx n : Nat} {c : Char}
    (hlen : u.length = pfx + runLen (u.drop pfx))
    (hn : u.get? n = some c) (hge : pfx ≤ n) : isTok c = true := by
  have hnlen : n < u.length := (List.get?_eq_some.mp hn).1
  have hrun : runLen (u.drop pfx) = (u.drop pfx).length := by
    rw [List.length_drop]; omega
  have hget : (u.drop pfx).get? (n - pfx) = some c := by
    rw [List.get?_drop, show pfx + (n - pfx) = n by omega]
    exact hn
  exact all_isTok_of_runLen_eq (u.drop pfx) hrun c (List.get?_mem hget)

/-- Every character of a URL-shaped string is a token character. -/
theorem urlShaped_allTok {u : Str} (hu : urlShaped u) :
    ∀ c ∈ u, isTok c = true := by
  intro c hc
  obtain ⟨n, hn⟩ := List.mem_iff_get?.mp hc
  rcases urlMatchAt_inv hu with ⟨hpf, _, hlen⟩ | ⟨_, hpf, _, hlen⟩
  · by_cases h8 : n < 8
    · exact url_prefix_tok hpf hn
        (by rw [show httpsStr.length = 8 from rfl]; exact h8)
        (pat_chars_https n h8).1 (pat_chars_https n h8).2
    · exact url_run_tok hlen hn (by omega)
  · by_cases h7 : n < 7
    · exact url_prefix_tok hpf hn
        (by rw [show httpStr.length = 7 from rfl]; exact h7)
        (pat_chars_http n h7).1 (pat_chars_http n h7).2
    · exact url_run_tok hlen hn (by omega)

/-- The run part of a fully matched string is token-only (membership
form). -/
theorem drop_tok_of_full {u : Str} {pfx : Nat}
    (hlen : u.length = pfx + runLen (u.drop pfx)) :
    ∀ c ∈ u.drop pfx, isTok c = true := by
  intro c hc
  obtain ⟨m, hm⟩ := List.mem_iff_get?.mp hc
  rw [List.get?_drop] at hm
  exact url_run_tok hlen hm (by omega)

/-- A shaped string keeps matching, with at least its own length, when a
suffix is appended (URL pattern). -/
theorem urlMatchAt_extend {u : Str} (b : Str) (hu : urlShaped u) :
    ∃ L, urlMatchAt (u ++ b) = some L ∧ u.length ≤ L := by
  rcases urlMatchAt_inv hu with ⟨hpf, hr, hlen⟩ | ⟨hno, hpf, hr, hlen⟩
  · have hle : 8 ≤ u.length := by omega
    have hpf2 : prefMatch true httpsStr (u ++ b) = true := prefMatch_append b hpf
    have hrun : runLen ((u ++ b).drop 8) = (u.drop 8).length + runLen b := by
      rw [List.drop_append_of_le_length hle]
      exact runLen_append_all _ b (drop_tok_of_full hlen)
    have hl8 : (u.drop 8).length = u.length - 8 := List.length_drop 8 u
    refine ⟨8 + runLen ((u ++ b).drop 8), ?_, by omega⟩
    unfold urlMatchAt
    rw [if_pos hpf2, if_neg (by omega)]
  · have hle : 7 ≤ u.length := by omega
    have hle8 : 8 ≤ u.length := by omega
    have hno2 : prefMatch true httpsStr (u ++ b) = false :=
      prefMatch_append_false b hno
        (by rw [show httpsStr.length = 8 from rfl]; omega)
    have hpf2 : prefMatch true httpStr (u ++ b) = true := prefMatch_append b hpf
    have hrun : runLen ((u ++ b).drop 7) = (u.drop 7).length + runLen b := by
      rw [List.drop_append_of_le_length hle]
      exact runLen_append_all _ b (drop_tok_of_full hlen)
    have hl7 : (u.drop 7).length = u.length - 7 := List.length_drop 7 u
    refine ⟨7 + runLen ((u ++ b).drop 7), ?_, by omega⟩
    unfold urlMatchAt
    rw [if_neg (by simp [hno2]), if_pos hpf2, if_neg (by omega)]

theorem https_not_h : ∀ k, 1 ≤ k → k < 8 →
    (httpsStr.get? k).map asciiLower ≠ some ('h') := by decide

theorem http_not_h : ∀ k, 1 ≤ k → k < 7 →
    (httpStr.get? k).map asciiLower ≠ some ('h') := by decide

/-- The fold of the first character of a URL-shaped string is `h`. -/
theorem urlShaped_head {u : Str} (hu : urlShaped u) :
    ∃ u0, u.get? 0 = some u0 ∧ asciiLower u0 = 'h' := by
  rcases urlMatchAt_inv hu with ⟨hpf, _, _⟩ | ⟨_, hpf, _, _⟩ <;>
  · obtain ⟨c, pc, hc, hpc, hfold⟩ := prefMatch_get? hpf 0 (by decide)
    simp only [if_true] at hfold
    have hpc0 : pc = 'h' := by
      first
      | (rw [show httpsStr.get? 0 = some ('h') from rfl] at hpc
         exact (Option.some.inj hpc).symm)
      | (rw [show httpStr.get? 0 = some ('h') from rfl] at hpc
         exact (Option.some.inj hpc).symm)
    exact ⟨c, hc, by rw [hfold, hpc0]; rfl⟩

/-- Containment: a URL-shaped occurrence that starts inside a URL match
ends inside it. -/
theorem url_containment {s : Str} {L : Nat} (h : urlMatchAt s = some L)
    {p : Nat} {u b : Str} (hpL : p < L) (hs : s.drop p = u ++ b)
    (hu : urlShaped u) : p + u.length ≤ L := by
  have hall := urlShaped_allTok hu
  have hulen : 8 ≤ u.length := by
    rcases urlMatchAt_inv hu with ⟨_, hr, hlen⟩ | ⟨_, _, hr, hlen⟩ <;> omega
  rcases urlMatchAt_inv h with ⟨hpf, hr, hlen⟩ | ⟨hno, hpf, hr, hlen⟩
  · -- s matches via https://
    by_cases hp8 : 8 ≤ p
    · exact hlen ▸ run_max_containment hp8 (by omega) hs hall
    · by_cases hp0 : p = 0
      · subst hp0
        rw [List.drop_zero] at hs
        rcases urlMatchAt_inv hu with ⟨hupf, hur, hulen2⟩ | ⟨huno, hupf, hur, hulen2⟩
        · -- same branch
          have hb : runLen (s.drop 8) = (u.drop 8).length + runLen b := by
            rw [hs, List.drop_append_of_le_length (by omega)]
            exact runLen_append_all _ b (drop_tok_of_full hulen2)
          have := List.length_drop 8 u
          omega
        · -- u http-shaped inside an https match: impossible
          exfalso
          obtain ⟨c, pc, hc, hpc, hfold⟩ := prefMatch_get? hpf 4 (by decide)
          obtain ⟨c2, pc2, hc2, hpc2, hfold2⟩ := prefMatch_get? hupf 4 (by decide)
          have hpcv : pc = 's' := by
            rw [show httpsStr.get? 4 = some ('s') from rfl] at hpc
            exact (Option.some.inj hpc).symm
          have hpc2v : pc2 = ':' := by
            rw [show httpStr.get? 4 = some (':') from rfl] at hpc2
            exact (Option.some.inj hpc2).symm
          have hsc : s.get? 4 = u.get? 4 := by
            rw [hs]
            exact List.get?_append (by omega)
          rw [hsc, hc2] at hc
          have hcc : c2 = c := Option.some.inj hc
          simp only [if_true] at hfold hfold2
          rw [hpcv] at hfold
          rw [hpc2v] at hfold2
          rw [hcc, hfold] at hfold2
          exact absurd hfold2 (by decide)
      · -- 0 < p < 8 : inside the literal prefix
        exfalso
        obtain ⟨u0, hu0, hu0h⟩ := urlShaped_head hu
        obtain ⟨c, pc, hc, hpc, hfold⟩ := prefMatch_get? hpf p
          (by rw [show httpsStr.length = 8 from rfl]; omega)
        have hsp : s.get? p = some u0 := by
          have : s.get? (p + 0) = (u ++ b).get? 0 := by
            rw [← List.get?_drop, hs]
          rw [Nat.add_zero] at this
          rw [this, List.get?_append (by omega), hu0]
        rw [hsp] at hc
        have hcc : u0 = c := Option.some.inj hc
        simp only [if_true] at hfold
        apply https_not_h p (by omega) (by omega)
        rw [hpc]
        simp only [Option.map_some', Option.some.injEq]
        rw [← hfold, ← hcc, hu0h]
  · -- s matches via http://
    by_cases hp7 : 7 ≤ p
    · exact hlen ▸ run_max_containment hp7 (by omega) hs hall
    · by_cases hp0 : p = 0
      · subst hp0
        rw [List.drop_zero] at hs
        rcases urlMatchAt_inv hu with ⟨hupf, hur, hulen2⟩ | ⟨huno, hupf, hur, hulen2⟩
        · -- u https-shaped inside an http match: impossible
          exfalso
          rw [hs] at hno
          rw [prefMatch_append b hupf] at hno
          cases hno
        · have hb : runLen (s.drop 7) = (u.drop 7).length + runLen b := by
            rw [hs, List.drop_append_of_le_length (by omega)]
            exact runLen_append_all _ b (drop_tok_of_full hulen2)
          have := List.length_drop 7 u
          omega
      · exfalso
        obtain ⟨u0, hu0, hu0h⟩ := urlShaped_head hu
        obtain ⟨c, pc, hc, hpc, hfold⟩ := prefMatch_get? hpf p
          (by rw [show httpStr.length = 7 from rfl]; omega)
        have hsp : s.get? p = some u0 := by
          have : s.get? (p + 0) = (u ++ b).get? 0 := by
            rw [← List.get?_drop, hs]
          rw [Nat.add_zero] at this
          rw [this, List.get?_append (by omega), hu0]
        rw [hsp] at hc
        have hcc : u0 = c := Option.some.inj hc
        simp only [if_true] at hfold
        apply http_not_h p (by omega) (by omega)
        rw [hpc]
        simp only [Option.map_some', Option.some.injEq]
        rw [← hfold, ← hcc, hu0h]

/-! ### Path pattern structure -/

theorem driveAt_inv {pv : Option Char} {s : Str} {L : Nat}
    (h : driveAt pv s = some L) :
    ∃ a rest, s = a :: ':' :: '\\' :: rest ∧ noWordBefore pv = true
      ∧ isAsciiLetter a = true ∧ 1 ≤ runLen rest ∧ L = 3 + runLen rest := by
  rcases s with _ | ⟨a, s1⟩
  · cases h
  rcases s1 with _ | ⟨b2, s2⟩
  · cases h
  rcases s2 with _ | ⟨c2, rest⟩
  · cases h
  simp only [driveAt] at h
  split_ifs at h with h1 h2
  all_goals try exact Option.noConfusion h
  simp only [Bool.and_eq_true, decide_eq_true_eq] at h1
  obtain ⟨⟨⟨hnw, hal⟩, hb⟩, hc⟩ := h1
  subst hb; subst hc
  exact ⟨a, rest, rfl, hnw, hal, by omega, (Option.some.inj h).symm⟩

theorem homeAt_inv {s : Str} {L : Nat} (h : homeAt s = some L) :
    ∃ rest, s = '~' :: '/' :: rest ∧ 1 ≤ runLen rest ∧ L = 2 + runLen rest := by
  rcases s with _ | ⟨a, s1⟩
  · cases h
  rcases s1 with _ | ⟨b2, rest⟩
  · cases h
  simp only [homeAt] at h
  split_ifs at h with h1 h2
  all_goals try exact Option.noConfusion h
  simp only [Bool.and_eq_true, decide_eq_true_eq] at h1
  obtain ⟨ha, hb⟩ := h1
  subst ha; subst hb
  exact ⟨rest, rfl, by omega, (Option.some.inj h).symm⟩

theorem dotAt_inv {s : Str} {L : Nat} (h : dotAt s = some L) :
    (∃ rest, s = '.' :: '.' :: '/' :: rest ∧ 1 ≤ runLen rest
      ∧ L = 3 + runLen rest)
    ∨ (∃ c rest, s = '.' :: '/' :: c :: rest ∧ 1 ≤ runLen (c :: rest)
      ∧ L = 2 + runLen (c :: rest)) := by
  rcases s with _ | ⟨a, s1⟩
  · cases h
  rcases s1 with _ | ⟨b2, s2⟩
  · cases h
  rcases s2 with _ | ⟨c2, rest⟩
  · cases h
  simp only [dotAt] at h
  split_ifs at h with h1 h2 h3 h4
  all_goals try exact Option.noConfusion h
  all_goals first
  | (simp only [Bool.and_eq_true, decide_eq_true_eq] at h1
     obtain ⟨⟨ha, hb⟩, hc⟩ := h1
     subst ha; subst hb; subst hc
     exact Or.inl ⟨rest, rfl, by omega, (Option.some.inj h).symm⟩)
  | (simp only [Bool.and_eq_true, decide_eq_true_eq] at h3
     obtain ⟨ha, hb⟩ := h3
     subst ha; subst hb
     exact Or.inr ⟨c2, rest, rfl, by omega, (Option.some.inj h).symm⟩)

theorem pathMatchAt_inv {pv : Option Char} {s : Str} {L : Nat}
    (h : pathMatchAt pv s = some L) :
    driveAt pv s = some L ∨ homeAt s = some L ∨ dotAt s = some L := by
  unfold pathMatchAt at h
  cases hd : driveAt pv s with
  | some n =>
    rw [hd] at h
    have h2 : some n = some L := h
    exact Or.inl h2
  | none =>
    rw [hd] at h
    have h2 : (match homeAt s with
        | some n => some n
        | none => dotAt s) = some L := h
    cases hh : homeAt s with
    | some n =>
      rw [hh] at h2
      have h3 : some n = some L := h2
      exact Or.inr (Or.inl h3)
    | none =>
      rw [hh] at h2
      exact Or.inr (Or.inr h2)

/-- Inversion of a path-shaped string into its four prefix forms, with
the run part token-complete. -/
theorem pathShaped_inv {pv : Option Char} {u : Str} (hu : pathShaped pv u) :
    (∃ a rest, u = a :: ':' :: '\\' :: rest ∧ noWordBefore pv = true
      ∧ isAsciiLetter a = true ∧ 1 ≤ rest.length ∧ runLen rest = rest.length)
    ∨ (∃ rest, u = '~' :: '/' :: rest ∧ 1 ≤ rest.length
      ∧ runLen rest = rest.length)
    ∨ (∃ rest, u = '.' :: '.' :: '/' :: rest ∧ 1 ≤ rest.length
      ∧ runLen rest = rest.length)
    ∨ (∃ c rest, u = '.' :: '/' :: c :: rest
      ∧ runLen (c :: rest) = (c :: rest).length) := by
  rcases pathMatchAt_inv hu with h | h | h
  · obtain ⟨a, rest, hs, hnw, hal, hr, hL⟩ := driveAt_inv h
    subst hs
    simp only [List.length_cons] at hL
    have := runLen_le rest
    exact Or.inl ⟨a, rest, rfl, hnw, hal, by omega, by omega⟩
  · obtain ⟨rest, hs, hr, hL⟩ := homeAt_inv h
    subst hs
    simp only [List.length_cons] at hL
    have := runLen_le rest
    exact Or.inr (Or.inl ⟨rest, rfl, by omega, by omega⟩)
  · rcases dotAt_inv h with ⟨rest, hs, hr, hL⟩ | ⟨c, rest, hs, hr, hL⟩
    · subst hs
      simp only [List.length_cons] at hL
      have := runLen_le rest
      exact Or.inr (Or.inr (Or.inl ⟨rest, rfl, by omega, by omega⟩))
    · subst hs
      simp only [List.length_cons] at hL
      have := runLen_le (c :: rest)
      refine Or.inr (Or.inr (Or.inr ⟨c, rest, rfl, ?_⟩))
      simp only [List.length_cons]
      omega

/-- Every character of a path-shaped string is a token character. -/
theorem pathShaped_allTok {pv : Option Char} {u : Str} (hu : pathShaped pv u) :
    ∀ c ∈ u, isTok c = true := by
  rcases pathShaped_inv hu with ⟨a, rest, hs, _, hal, _, hfull⟩ |
    ⟨rest, hs, _, hfull⟩ | ⟨rest, hs, _, hfull⟩ | ⟨c0, rest, hs, hfull⟩ <;>
    subst hs <;> intro c hc <;> simp only [List.mem_cons] at hc
  · rcases hc with rfl | rfl | rfl | hc'
    · exact isTok_of_isAsciiLetter hal
    · decide
    · decide
    · exact all_isTok_of_runLen_eq rest hfull c hc'
  · rcases hc with rfl | rfl | hc'
    · decide
    · decide
    · exact all_isTok_of_runLen_eq rest hfull c hc'
  · rcases hc with rfl | rfl | rfl | hc'
    · decide
    · decide
    · decide
    · exact all_isTok_of_runLen_eq rest hfull c hc'
  · rcases hc with rfl | rfl | hc'
    · decide
    · decide
    · exact all_isTok_of_runLen_eq (c0 :: rest) hfull c (by simpa using hc')

/-- Claim C6 counterexample: with the default matcher and the replacement
`"opencode!"` — which contains the target word — a second run of
`replace` on the first run's output changes it again: each call re-scans
its whole input, so the text inserted by the first pass is matched by the
second.  The claimed second-pass fixed point fails. -/
theorem C6_counterexample :
    hasMatch OPENCODE_REGEX (("opencode!").toList) = true
    ∧ replaceInText (("opencode").toList) (("opencode!").toList) none
        = ("opencode!").toList
    ∧ replaceInText (("opencode!").toList) (("opencode!").toList) none
        = ("opencode!!").toList
    ∧ ("opencode!!").toList ≠ ("opencode!").toList := by
  decide

/-- Claim C6 as amended: a single call performs one non-recursive pass, but
a second call re-scans its whole input, so the first output is a fixed
point of a second pass only when it contains no matcher occurrence in its
plain-text gap regions (outside code spans and protected URL/path
ranges); when the replacement string contains the target word, the second
pass can replace inside the inserted text. -/
theorem C6_amended_second_pass (t r : Str) (rg : Option Matcher)
    (h : gapCleanO rg (replaceInText t r rg) = true) :
    replaceInText (replaceInText t r rg) r rg = replaceInText t r rg :=
  replaceInText_clean _ r rg h

/-- Witness for the amended C6 at a concrete input whose output is gap
clean. -/
theorem C6_amended_second_pass_witness :
    gapCleanO none
        (replaceInText (("hello opencode").toList) (("Renamer").toList) none)
      = true
    ∧ replaceInText
        (replaceInText (("hello opencode").toList) (("Renamer").toList) none)
        (("Renamer").toList) none
      = replaceInText (("hello opencode").toList) (("Renamer").toList) none :=
  ⟨by decide,
   C6_amended_second_pass (("hello opencode").toList) (("Renamer").toList)
     none (by decide)⟩

/-- Claim C8: `updateSessionTitleIfNeeded` is deterministic across calls.
A call entered with scan position 0 always leaves the shared global
matcher's scan position (`lastIndex`) at 0 — the failed-test path resets
it per JS semantics and the successful-test path resets it explicitly —
so a second call with the same arguments returns the same result, and a
concrete title containing the target word is detected and rewritten on
the second call exactly as on the first. -/
theorem C8_session_title_deterministic :
    (∀ (title : Option Str) (r : Str) (rg : Option Matcher),
      (updateSessionTitleIfNeeded title r rg 0).2 = 0
      ∧ (updateSessionTitleIfNeeded title r rg
            ((updateSessionTitleIfNeeded title r rg 0).2)).1
          = (updateSessionTitleIfNeeded title r rg 0).1)
    ∧ (updateSessionTitleIfNeeded (some (("use opencode").toList))
          (("R").toList) none
          ((updateSessionTitleIfNeeded (some (("use opencode").toList))
              (("R").toList) none 0).2)).1
        = some (("use R").toList) := by
  refine ⟨?_, by decide⟩
  intro title r rg
  have hsnd : (updateSessionTitleIfNeeded title r rg 0).2 = 0 := by
    cases title with
    | none => rfl
    | some t =>
      by_cases ht : t.isEmpty = true
      · simp [updateSessionTitleIfNeeded, ht]
      · rcases hm : firstMatchGo (rg.getD OPENCODE_REGEX) t.length t
          with _ | ⟨q, n⟩ <;>
          simp [updateSessionTitleIfNeeded, ht, regexTest, hm]
  exact ⟨hsnd, by rw [hsnd]⟩

/-- Claim C4 as amended: when `replace` is called without a matcher, the
default matcher performs case-insensitive *substring* matching of the
fixed target word — every occurrence of `"opencode"` in any letter case
is replaced, including occurrences lying inside longer words; matching is
not whole-word.  The gap-replacement primitive coincides with a direct
case-insensitive replace-all of the literal target. -/
theorem C4_amended_default_matcher :
    (∀ t r : Str, replaceOpencode t r none = ciReplaceAll opencodeStr t r)
    ∧ replaceInText (("xopencodex").toList) (("Renamer").toList) none
        = ("xRenamerx").toList
    ∧ replaceInText (("OPENCODE OpEnCoDe").toList) (("R").toList) none
        = ("R R").toList := by
  refine ⟨?_, by decide, by decide⟩
  intro t r
  unfold replaceOpencode ciReplaceAll
  cases t with
  | nil => rfl
  | cons c cs =>
    simp only [List.isEmpty_cons, Option.getD_none]
    exact replaceGo_eq_ciReplaceAllGo r (cs.length + 1) (c :: cs)

/-! ### Protection-invariant machinery (claim C1) -/

/-- A greedy run extends through a fully-token prefix of its text. -/
theorem runLen_ge_of_full {w b rest : Str} (hr : rest = w ++ b)
    (hfull : runLen w = w.length) : runLen rest = w.length + runLen b := by
  subst hr
  exact runLen_append_all w b (all_isTok_of_runLen_eq w hfull)

theorem getLast?_take {l : Str} {n : Nat} (h1 : 1 ≤ n) (h2 : n ≤ l.length) :
    (l.take n).getLast? = l.get? (n - 1) := by
  rw [List.getLast?_eq_get?, List.length_take]
  have hmin : min n l.length = n := by omega
  rw [hmin, List.get?_take (by omega)]

/-- A path match is at least three characters long. -/
theorem pathMatch_pos {pv : Option Char} {s : Str} {n : Nat}
    (h : pathMatchAt pv s = some n) : 3 ≤ n := by
  rcases pathMatchAt_inv h with hD | hH | hT
  · obtain ⟨a, rest, _, _, _, hr, hL⟩ := driveAt_inv hD
    omega
  · obtain ⟨rest, _, hr, hL⟩ := homeAt_inv hH
    omega
  · rcases dotAt_inv hT with ⟨rest, _, hr, hL⟩ | ⟨c, rest, _, hr, hL⟩ <;> omega

/-- A URL match is at least eight characters long. -/
theorem urlMatch_pos {s : Str} {n : Nat} (h : urlMatchAt s = some n) : 8 ≤ n := by
  rcases urlMatchAt_inv h with ⟨_, hr, hL⟩ | ⟨_, _, hr, hL⟩ <;> omega

/-- A path-shaped string keeps matching when a suffix is appended, for
any preceding character at least as permissive for `\\b`; the new match
swallows the appended text\'s leading token run. -/
theorem pathMatchAt_extend {pv pv2 : Option Char} {u : Str} (b : Str)
    (hu : pathShaped pv u)
    (himp : noWordBefore pv = true → noWordBefore pv2 = true) :
    pathMatchAt pv2 (u ++ b) = some (u.length + runLen b) := by
  rcases pathShaped_inv hu with ⟨a, rest, hs, hnw, hal, hr, hfull⟩ |
    ⟨rest, hs, hr, hfull⟩ | ⟨rest, hs, hr, hfull⟩ | ⟨c0, rest, hs, hfull⟩
  · subst hs
    have hrun : runLen (rest ++ b) = rest.length + runLen b :=
      runLen_ge_of_full rfl hfull
    have hcond : (noWordBefore pv2 && isAsciiLetter a
        && decide ((':' : Char) = ':') && decide (('\\' : Char) = '\\')) = true := by
      rw [himp hnw, hal]
      decide
    have hd : driveAt pv2 (a :: ':' :: '\\' :: (rest ++ b))
        = some (3 + runLen (rest ++ b)) := by
      show (if noWordBefore pv2 && isAsciiLetter a
            && decide ((':' : Char) = ':') && decide (('\\' : Char) = '\\') then
          if runLen (rest ++ b) = 0 then none else some (3 + runLen (rest ++ b))
        else none) = some (3 + runLen (rest ++ b))
      rw [if_pos hcond, if_neg (by omega)]
    unfold pathMatchAt
    rw [show (a :: ':' :: '\\' :: rest) ++ b = a :: ':' :: '\\' :: (rest ++ b)
      from rfl, hd]
    show some (3 + runLen (rest ++ b))
      = some ((a :: ':' :: '\\' :: rest).length + runLen b)
    rw [hrun]
    simp only [Option.some.injEq, List.length_cons]
    omega
  · rcases rest with _ | ⟨r0, rest2⟩
    · simp at hr
    subst hs
    have hrun : runLen (r0 :: (rest2 ++ b)) = (r0 :: rest2).length + runLen b :=
      runLen_ge_of_full (by rw [List.cons_append]) hfull
    have h1len : 1 ≤ (r0 :: rest2).length := by simp
    have hd : driveAt pv2 ('~' :: '/' :: r0 :: (rest2 ++ b)) = none := by
      show (if noWordBefore pv2 && isAsciiLetter '~'
            && decide (('/' : Char) = ':') && decide (r0 = '\\') then
          if runLen (rest2 ++ b) = 0 then none else some (3 + runLen (rest2 ++ b))
        else none) = none
      rw [if_neg (by simp [show isAsciiLetter ('~' : Char) = false from by decide])]
    have hh : homeAt ('~' :: '/' :: r0 :: (rest2 ++ b))
        = some (2 + runLen (r0 :: (rest2 ++ b))) := by
      show (if decide (('~' : Char) = '~') && decide (('/' : Char) = '/') then
          if runLen (r0 :: (rest2 ++ b)) = 0 then none
          else some (2 + runLen (r0 :: (rest2 ++ b)))
        else none) = some (2 + runLen (r0 :: (rest2 ++ b)))
      rw [if_pos (by decide), if_neg (by omega)]
    unfold pathMatchAt
    rw [show ('~' :: '/' :: r0 :: rest2) ++ b = '~' :: '/' :: r0 :: (rest2 ++ b)
      from rfl, hd, hh]
    show some (2 + runLen (r0 :: (rest2 ++ b)))
      = some (('~' :: '/' :: r0 :: rest2).length + runLen b)
    rw [hrun]
    simp only [Option.some.injEq, List.length_cons]
    omega
  · rcases rest with _ | ⟨r0, rest2⟩
    · simp at hr
    subst hs
    have hrun : runLen (r0 :: (rest2 ++ b)) = (r0 :: rest2).length + runLen b :=
      runLen_ge_of_full (by rw [List.cons_append]) hfull
    have h1len : 1 ≤ (r0 :: rest2).length := by simp
    have hd : driveAt pv2 ('.' :: '.' :: '/' :: r0 :: (rest2 ++ b)) = none := by
      show (if noWordBefore pv2 && isAsciiLetter '.'
            && decide (('.' : Char) = ':') && decide (('/' : Char) = '\\') then
          if runLen (r0 :: (rest2 ++ b)) = 0 then none
          else some (3 + runLen (r0 :: (rest2 ++ b)))
        else none) = none
      rw [if_neg (by simp [show isAsciiLetter ('.' : Char) = false from by decide])]
    have hh : homeAt ('.' :: '.' :: '/' :: r0 :: (rest2 ++ b)) = none := by
      show (if decide (('.' : Char) = '~') && decide (('.' : Char) = '/') then
          if runLen ('/' :: r0 :: (rest2 ++ b)) = 0 then none
          else some (2 + runLen ('/' :: r0 :: (rest2 ++ b)))
        else none) = none
      rw [if_neg (by decide)]
    have hdot : dotAt ('.' :: '.' :: '/' :: r0 :: (rest2 ++ b))
        = some (3 + runLen (r0 :: (rest2 ++ b))) := by
      show (if decide (('.' : Char) = '.') && decide (('.' : Char) = '.')
            && decide (('/' : Char) = '/') then
          if runLen (r0 :: (rest2 ++ b)) = 0 then none
          else some (3 + runLen (r0 :: (rest2 ++ b)))
        else if decide (('.' : Char) = '.') && decide (('.' : Char) = '/') then
          if runLen ('/' :: r0 :: (rest2 ++ b)) = 0 then none
          else some (2 + runLen ('/' :: r0 :: (rest2 ++ b)))
        else none) = some (3 + runLen (r0 :: (rest2 ++ b)))
      rw [if_pos (by decide), if_neg (by omega)]
    unfold pathMatchAt
    rw [show ('.' :: '.' :: '/' :: r0 :: rest2) ++ b
      = '.' :: '.' :: '/' :: r0 :: (rest2 ++ b) from rfl, hd, hh, hdot]
    show some (3 + runLen (r0 :: (rest2 ++ b)))
      = some (('.' :: '.' :: '/' :: r0 :: rest2).length + runLen b)
    rw [hrun]
    simp only [Option.some.injEq, List.length_cons]
    omega
  · subst hs
    have hrun : runLen (c0 :: (rest ++ b)) = (c0 :: rest).length + runLen b :=
      runLen_ge_of_full (by rw [List.cons_append]) hfull
    have h1len : 1 ≤ (c0 :: rest).length := by simp
    have hd : driveAt pv2 ('.' :: '/' :: c0 :: (rest ++ b)) = none := by
      show (if noWordBefore pv2 && isAsciiLetter '.'
            && decide (('/' : Char) = ':') && decide (c0 = '\\') then
          if runLen (rest ++ b) = 0 then none else some (3 + runLen (rest ++ b))
        else none) = none
      rw [if_neg (by simp [show isAsciiLetter ('.' : Char) = false from by decide])]
    have hh : homeAt ('.' :: '/' :: c0 :: (rest ++ b)) = none := by
      show (if decide (('.' : Char) = '~') && decide (('/' : Char) = '/') then
          if runLen (c0 :: (rest ++ b)) = 0 then none
          else some (2 + runLen (c0 :: (rest ++ b)))
        else none) = none
      rw [if_neg (by simp)]
    have hdot : dotAt ('.' :: '/' :: c0 :: (rest ++ b))
        = some (2 + runLen (c0 :: (rest ++ b))) := by
      show (if decide (('.' : Char) = '.') && decide (('/' : Char) = '.')
            && decide (c0 = '/') then
          if runLen (rest ++ b) = 0 then none else some (3 + runLen (rest ++ b))
        else if decide (('.' : Char) = '.') && decide (('/' : Char) = '/') then
          if runLen (c0 :: (rest ++ b)) = 0 then none
          else some (2 + runLen (c0 :: (rest ++ b)))
        else none) = some (2 + runLen (c0 :: (rest ++ b)))
      rw [if_neg (by simp [show decide (('/' : Char) = '.') = false from by decide]),
        if_pos (by decide), if_neg (by omega)]
    unfold pathMatchAt
    rw [show ('.' :: '/' :: c0 :: rest) ++ b = '.' :: '/' :: c0 :: (rest ++ b)
      from rfl, hd, hh, hdot]
    show some (2 + runLen (c0 :: (rest ++ b)))
      = some (('.' :: '/' :: c0 :: rest).length + runLen b)
    rw [hrun]
    simp only [Option.some.injEq, List.length_cons]
    omega

/-- `\\b` holds after no character at all, so a path shape survives
dropping the knowledge of the preceding character. -/
theorem pathShaped_mono {pv : Option Char} {u : Str} (hu : pathShaped pv u) :
    pathShaped none u := by
  have h := @pathMatchAt_extend pv none u [] hu (fun _ => rfl)
  rw [List.append_nil] at h
  unfold pathShaped
  rw [h]
  simp [runLen]

/-- The first character of a path-shaped string is an ASCII letter, `~`,
or `.`. -/
theorem pathShaped_head {pv : Option Char} {u : Str} (hu : pathShaped pv u) :
    ∃ h0 rest0, u = h0 :: rest0
      ∧ (isAsciiLetter h0 = true ∨ h0 = '~' ∨ h0 = '.') := by
  rcases pathShaped_inv hu with ⟨a, rest, hs, _, hal, _, _⟩ |
    ⟨rest, hs, _, _⟩ | ⟨rest, hs, _, _⟩ | ⟨c0, rest, hs, _⟩
  · exact ⟨a, _, hs, Or.inl hal⟩
  · exact ⟨'~', _, hs, Or.inr (Or.inl rfl)⟩
  · exact ⟨'.', _, hs, Or.inr (Or.inr rfl)⟩
  · exact ⟨'.', _, hs, Or.inr (Or.inr rfl)⟩

/-- The scan-style previous character at the end of a nonempty prefix. -/
theorem prevCh_append (x2 z : Str) (h : x2 ≠ []) :
    prevCh (x2 ++ z) x2.length = x2.getLast? := by
  unfold prevCh
  have hlen : x2.length ≠ 0 := fun hh => h (List.length_eq_zero.mp hh)
  rw [if_neg hlen, List.get?_append (by omega), List.getLast?_eq_get?]

/-- A nonempty drop keeps the last element. -/
theorem getLast?_drop_of_ne_nil {x : Str} {m : Nat} (h : x.drop m ≠ []) :
    (x.drop m).getLast? = x.getLast? := by
  conv_rhs => rw [← List.take_append_drop m x]
  rw [List.getLast?_append]
  cases hl : (x.drop m).getLast? with
  | none => exact absurd (List.getLast?_eq_none.mp hl) h
  | some c => rfl

/-- A path-shaped string cannot start at a character that no path
alternative can start with. -/
theorem not_pathStart {pv : Option Char} {u b rest : Str} {d : Char}
    (hd : isAsciiLetter d = false) (hd2 : d ≠ '~') (hd3 : d ≠ '.')
    (hu : pathShaped pv u) (hs : d :: rest = u ++ b) : False := by
  obtain ⟨h0, r0, hueq, hh⟩ := pathShaped_head hu
  subst hueq
  simp only [List.cons_append, List.cons_eq_cons] at hs
  have hx := hs.1
  rcases hh with hh | hh | hh
  · rw [← hx] at hh
    rw [hd] at hh
    cases hh
  · rw [← hx] at hh
    exact hd2 hh
  · rw [← hx] at hh
    exact hd3 hh

/-- Containment: a path-shaped occurrence that starts inside a path match
ends inside it. -/
theorem path_containment {pv : Option Char} {s : Str} {n : Nat}
    (h : pathMatchAt pv s = some n) {p : Nat} {u b : Str} (hp : p < n)
    (hs : s.drop p = u ++ b)
    (hu : pathShaped (if p = 0 then pv else s.get? (p - 1)) u) :
    p + u.length ≤ n := by
  have hall := pathShaped_allTok hu
  rcases pathMatchAt_inv h with hD | hH | hT
  · obtain ⟨a, rest, hseq, hnw, hal, hr, hn⟩ := driveAt_inv hD
    subst hseq
    by_cases h3 : 3 ≤ p
    · have hd3 : (a :: ':' :: '\\' :: rest).drop 3 = rest := rfl
      have hres := run_max_containment h3 (by rw [hd3]; omega) hs hall
      rw [hd3] at hres
      omega
    · obtain rfl | rfl | rfl : p = 0 ∨ p = 1 ∨ p = 2 := by omega
      · rw [List.drop_zero] at hs
        rcases pathShaped_inv hu with ⟨a2, r2, hueq, hnw2, hal2, hr2, hfull2⟩ |
          ⟨r2, hueq, hr2, hfull2⟩ | ⟨r2, hueq, hr2, hfull2⟩ |
          ⟨c2, r2, hueq, hfull2⟩ <;>
          subst hueq <;>
          simp only [List.cons_append, List.cons_eq_cons] at hs
        · have hrun := runLen_ge_of_full hs.2.2.2 hfull2
          simp only [List.length_cons]
          omega
        · exact absurd hs.2.1 (by decide)
        · exact absurd hs.2.1 (by decide)
        · exact absurd hs.2.1 (by decide)
      · simp only [List.drop_succ_cons, List.drop_zero] at hs
        exact absurd (not_pathStart (by decide) (by decide) (by decide) hu hs)
          (fun hf => hf)
      · simp only [List.drop_succ_cons, List.drop_zero] at hs
        exact absurd (not_pathStart (by decide) (by decide) (by decide) hu hs)
          (fun hf => hf)
  · obtain ⟨rest, hseq, hr, hn⟩ := homeAt_inv hH
    subst hseq
    by_cases h2 : 2 ≤ p
    · have hd2 : ('~' :: '/' :: rest).drop 2 = rest := rfl
      have hres := run_max_containment h2 (by rw [hd2]; omega) hs hall
      rw [hd2] at hres
      omega
    · obtain rfl | rfl : p = 0 ∨ p = 1 := by omega
      · rw [List.drop_zero] at hs
        rcases pathShaped_inv hu with ⟨a2, r2, hueq, hnw2, hal2, hr2, hfull2⟩ |
          ⟨r2, hueq, hr2, hfull2⟩ | ⟨r2, hueq, hr2, hfull2⟩ |
          ⟨c2, r2, hueq, hfull2⟩ <;>
          subst hueq <;>
          simp only [List.cons_append, List.cons_eq_cons] at hs
        · exact absurd hs.2.1 (by decide)
        · have hrun := runLen_ge_of_full hs.2.2 hfull2
          simp only [List.length_cons]
          omega
        · exact absurd hs.1 (by decide)
        · exact absurd hs.1 (by decide)
      · simp only [List.drop_succ_cons, List.drop_zero] at hs
        exact absurd (not_pathStart (by decide) (by decide) (by decide) hu hs)
          (fun hf => hf)
  · rcases dotAt_inv hT with ⟨rest, hseq, hr, hn⟩ | ⟨c, rest, hseq, hr, hn⟩
    · subst hseq
      by_cases h3 : 3 ≤ p
      · have hd3 : ('.' :: '.' :: '/' :: rest).drop 3 = rest := rfl
        have hres := run_max_containment h3 (by rw [hd3]; omega) hs hall
        rw [hd3] at hres
        omega
      · obtain rfl | rfl | rfl : p = 0 ∨ p = 1 ∨ p = 2 := by omega
        · rw [List.drop_zero] at hs
          rcases pathShaped_inv hu with ⟨a2, r2, hueq, hnw2, hal2, hr2, hfull2⟩ |
            ⟨r2, hueq, hr2, hfull2⟩ | ⟨r2, hueq, hr2, hfull2⟩ |
            ⟨c2, r2, hueq, hfull2⟩ <;>
            subst hueq <;>
            simp only [List.cons_append, List.cons_eq_cons] at hs
          · exact absurd hs.2.1 (by decide)
          · exact absurd hs.1 (by decide)
          · have hrun := runLen_ge_of_full hs.2.2.2 hfull2
            simp only [List.length_cons]
            omega
          · exact absurd hs.2.1 (by decide)
        · simp only [List.drop_succ_cons, List.drop_zero] at hs
          rcases pathShaped_inv hu with ⟨a2, r2, hueq, hnw2, hal2, hr2, hfull2⟩ |
            ⟨r2, hueq, hr2, hfull2⟩ | ⟨r2, hueq, hr2, hfull2⟩ |
            ⟨c2, r2, hueq, hfull2⟩ <;>
            subst hueq <;>
            simp only [List.cons_append, List.cons_eq_cons] at hs
          · exact absurd hs.2.1 (by decide)
          · exact absurd hs.1 (by decide)
          · exact absurd hs.2.1 (by decide)
          · have hrest : rest = (c2 :: r2) ++ b := by
              rw [hs.2.2, List.cons_append]
            have hrun := runLen_ge_of_full hrest hfull2
            simp only [List.length_cons] at hrun ⊢
            omega
        · simp only [List.drop_succ_cons, List.drop_zero] at hs
          exact absurd (not_pathStart (by decide) (by decide) (by decide) hu hs)
            (fun hf => hf)
    · subst hseq
      by_cases h2 : 2 ≤ p
      · have hd2 : ('.' :: '/' :: c :: rest).drop 2 = c :: rest := rfl
        have hres := run_max_containment h2 (by rw [hd2]; omega) hs hall
        rw [hd2] at hres
        omega
      · obtain rfl | rfl : p = 0 ∨ p = 1 := by omega
        · rw [List.drop_zero] at hs
          rcases pathShaped_inv hu with ⟨a2, r2, hueq, hnw2, hal2, hr2, hfull2⟩ |
            ⟨r2, hueq, hr2, hfull2⟩ | ⟨r2, hueq, hr2, hfull2⟩ |
            ⟨c2, r2, hueq, hfull2⟩ <;>
            subst hueq <;>
            simp only [List.cons_append, List.cons_eq_cons] at hs
          · exact absurd hs.2.1 (by decide)
          · exact absurd hs.1 (by decide)
          · exact absurd hs.2.1 (by decide)
          · have hrest : c :: rest = (c2 :: r2) ++ b := by
              rw [hs.2.2.1, hs.2.2.2, List.cons_append]
            have hrun := runLen_ge_of_full hrest hfull2
            simp only [List.length_cons] at hrun ⊢
            omega
        · simp only [List.drop_succ_cons, List.drop_zero] at hs
          exact absurd (not_pathStart (by decide) (by decide) (by decide) hu hs)
            (fun hf => hf)

/-- Coverage of the `matchAll` scan: an occurrence that is shaped for the
scanned pattern (relative to its preceding character) is covered by some
recorded match range.  `S` is the shape predicate, `Hpos` rules out
zero-length matches, `Hext` extends a shaped prefix to a match, and
`Hcont` is the containment property of a single match. -/
theorem scan_cover (f : Option Char → Str → Option Nat)
    (S : Option Char → Str → Prop)
    (Hpos : ∀ pv s n, f pv s = some n → 1 ≤ n)
    (Hext : ∀ pv u b, S pv u → ∃ n, f pv (u ++ b) = some n ∧ u.length ≤ n)
    (Hcont : ∀ pv s n p u b, f pv s = some n → p < n → s.drop p = u ++ b →
      S (if p = 0 then pv else s.get? (p - 1)) u → p + u.length ≤ n)
    (t x u y : Str) (ht : t = x ++ u ++ y) (hune : u ≠ [])
    (hS : S (prevCh t x.length) u) :
    ∀ (fuel i : Nat) (pv : Option Char),
      i ≤ x.length → t.length - i ≤ fuel → pv = prevCh t i →
      ∃ s e, (s, e) ∈ scanGo f fuel i pv (t.drop i)
        ∧ s ≤ x.length ∧ x.length + u.length ≤ e := by
  have hul : 1 ≤ u.length := List.length_pos.mpr hune
  have hlen : t.length = x.length + u.length + y.length := by
    subst ht
    simp [List.length_append]
    omega
  have hdropx : t.drop x.length = u ++ y := by
    conv_lhs => rw [ht]
    rw [List.append_assoc, List.drop_left]
  intro fuel
  induction fuel with
  | zero =>
    intro i pv hix hfl hpv
    exfalso
    omega
  | succ fuel ih =>
    intro i pv hix hfl hpv
    cases hrest : t.drop i with
    | nil =>
      exfalso
      have := List.drop_eq_nil_iff_le.mp hrest
      omega
    | cons c cs =>
      have hstep : scanGo f (fuel + 1) i pv (c :: cs)
          = match f pv (c :: cs) with
            | some n =>
              if n = 0 then scanGo f fuel (i + 1) (some c) cs
              else (i, i + n) ::
                scanGo f fuel (i + n) (((c :: cs).take n).getLast?)
                  ((c :: cs).drop n)
            | none => scanGo f fuel (i + 1) (some c) cs := rfl
      have hgi : t.get? i = some c := by
        have h0 := List.get?_drop t i 0
        rw [hrest] at h0
        simpa using h0.symm
      have hcs : t.drop (i + 1) = cs := by
        have hdd := List.drop_drop 1 i t
        rw [hrest] at hdd
        simpa using hdd.symm
      cases hf : f pv (c :: cs) with
      | none =>
        have hne : i ≠ x.length := by
          intro he
          obtain ⟨n, hn, _⟩ := Hext (prevCh t x.length) u y hS
          rw [← hdropx, ← he, hrest] at hn
          rw [← hpv] at hn
          rw [hf] at hn
          cases hn
        have hsc : scanGo f (fuel + 1) i pv (c :: cs)
            = scanGo f fuel (i + 1) (some c) cs := by
          rw [hstep, hf]
        rw [hsc, ← hcs]
        refine ih (i + 1) (some c) (by omega) (by omega) ?_
        unfold prevCh
        rw [if_neg (by omega)]
        simpa using hgi.symm
      | some n =>
        have hn1 : 1 ≤ n := Hpos pv (c :: cs) n hf
        have hsc : scanGo f (fuel + 1) i pv (c :: cs)
            = (i, i + n) ::
              scanGo f fuel (i + n) (((c :: cs).take n).getLast?)
                ((c :: cs).drop n) := by
          rw [hstep, hf]
          show (if n = 0 then scanGo f fuel (i + 1) (some c) cs
              else (i, i + n) ::
                scanGo f fuel (i + n) (((c :: cs).take n).getLast?)
                  ((c :: cs).drop n))
            = (i, i + n) ::
              scanGo f fuel (i + n) (((c :: cs).take n).getLast?)
                ((c :: cs).drop n)
          rw [if_neg (by omega)]
        rw [hsc]
        by_cases hcover : x.length < i + n
        · refine ⟨i, i + n, List.mem_cons_self _ _, hix, ?_⟩
          have hdp : (c :: cs).drop (x.length - i) = u ++ y := by
            rw [← hrest, List.drop_drop,
              show i + (x.length - i) = x.length from by omega, hdropx]
          have hSc : S (if x.length - i = 0 then pv
              else (c :: cs).get? (x.length - i - 1)) u := by
            by_cases h0 : x.length - i = 0
            · rw [if_pos h0]
              have hieq : i = x.length := by omega
              rw [hpv, hieq]
              exact hS
            · rw [if_neg h0]
              have hg : (c :: cs).get? (x.length - i - 1)
                  = t.get? (x.length - 1) := by
                rw [← hrest, List.get?_drop]
                congr 1
                omega
              rw [hg]
              have hpc : t.get? (x.length - 1) = prevCh t x.length := by
                unfold prevCh
                rw [if_neg (by omega)]
              rw [hpc]
              exact hS
          have := Hcont pv (c :: cs) n (x.length - i) u y hf (by omega) hdp hSc
          omega
        · have hipn : i + n ≤ x.length := by omega
          have hdn : (c :: cs).drop n = t.drop (i + n) := by
            rw [← hrest, List.drop_drop]
          have hnlen : n ≤ (c :: cs).length := by
            have hclen : (c :: cs).length = t.length - i := by
              rw [← hrest, List.length_drop]
            omega
          have hpv2 : ((c :: cs).take n).getLast? = prevCh t (i + n) := by
            rw [getLast?_take hn1 hnlen, ← hrest, List.get?_drop]
            unfold prevCh
            rw [if_neg (by omega)]
            congr 1
            omega
          obtain ⟨s2, e2, hmem, hs2, he2⟩ := ih (i + n)
            (((c :: cs).take n).getLast?) hipn (by omega) hpv2
          rw [hdn]
          exact ⟨s2, e2, List.mem_cons_of_mem _ hmem, hs2, he2⟩

/-- The merge fold covers every input range (and anything the seed
already covers) by some output range. -/
theorem mergeLoop_covers :
    ∀ (l : List (Int × Int)) (last z : Int × Int),
      ((last.1 ≤ z.1 ∧ z.2 ≤ last.2) ∨ z ∈ l) →
      (∀ w ∈ l, last.1 ≤ w.1) →
      List.Sorted (fun a b => a.1 ≤ b.1) l →
      ∃ w ∈ mergeLoop last l, w.1 ≤ z.1 ∧ z.2 ≤ w.2 := by
  intro l
  induction l with
  | nil =>
    intro last z hz _ _
    rcases hz with hz | hz
    · exact ⟨last, by simp [mergeLoop], hz.1, hz.2⟩
    · cases hz
  | cons cur rest ih =>
    intro last z hz hge hsort
    rw [List.sorted_cons] at hsort
    by_cases h : cur.1 ≤ last.2
    · rw [mergeLoop, if_pos h]
      refine ih (last.1, max last.2 cur.2) z ?_
        (fun w hw => hge w (List.mem_cons_of_mem _ hw)) hsort.2
      rcases hz with hz | hz
      · exact Or.inl ⟨hz.1, le_trans hz.2 (le_max_left _ _)⟩
      · rcases List.mem_cons.mp hz with rfl | hz2
        · exact Or.inl ⟨hge z (List.mem_cons_self _ _), le_max_right _ _⟩
        · exact Or.inr hz2
    · rw [mergeLoop, if_neg h]
      rcases hz with hz | hz
      · exact ⟨last, List.mem_cons_self _ _, hz.1, hz.2⟩
      · rcases List.mem_cons.mp hz with rfl | hz2
        · obtain ⟨w, hw, h1, h2⟩ := ih z z (Or.inl ⟨le_refl _, le_refl _⟩)
            (fun w hw => hsort.1 w hw) hsort.2
          exact ⟨w, List.mem_cons_of_mem _ hw, h1, h2⟩
        · obtain ⟨w, hw, h1, h2⟩ := ih cur z (Or.inr hz2)
            (fun w hw => hsort.1 w hw) hsort.2
          exact ⟨w, List.mem_cons_of_mem _ hw, h1, h2⟩

/-- A valid nonnegative range given to the sanitisation pipeline is
covered by one of the merged output ranges. -/
theorem range_pipeline_covers {ranges : List (Int × Int)} {z : Int × Int}
    (hz : z ∈ ranges) (h0 : 0 ≤ z.1) (hlt : z.1 < z.2) :
    ∃ w ∈ mergedProtectedRanges ranges, w.1 ≤ z.1 ∧ z.2 ≤ w.2 := by
  have hcl : clampR z = z := by
    unfold clampR
    rw [max_eq_right h0, max_eq_right (by omega)]
  have hmem1 : z ∈ (ranges.map clampR).filter (fun w => decide (w.1 < w.2)) := by
    rw [List.mem_filter]
    exact ⟨List.mem_map.mpr ⟨z, hz, hcl⟩, by simpa using hlt⟩
  have hmem2 : z ∈ sortRanges (sortRanges
      ((ranges.map clampR).filter (fun w => decide (w.1 < w.2)))) :=
    mem_sortRanges.mpr (mem_sortRanges.mpr hmem1)
  have hsort := sortRanges_sorted (sortRanges
      ((ranges.map clampR).filter (fun w => decide (w.1 < w.2))))
  unfold mergedProtectedRanges mergeRanges
  cases hL : sortRanges (sortRanges
      ((ranges.map clampR).filter (fun w => decide (w.1 < w.2)))) with
  | nil =>
    rw [hL] at hmem2
    cases hmem2
  | cons a rest =>
    rw [hL] at hmem2 hsort
    rw [List.sorted_cons] at hsort
    rcases List.mem_cons.mp hmem2 with rfl | hz2
    · exact mergeLoop_covers rest z z (Or.inl ⟨le_refl _, le_refl _⟩)
        hsort.1 hsort.2
    · exact mergeLoop_covers rest a z (Or.inr hz2) hsort.1 hsort.2

/-- Every piece of the protected list appears literally in the
alternating join. -/
theorem altJoin_emit :
    ∀ (ps gs : List Str) (k : Nat) (p : Str),
      ps.get? k = some p → gs.length = ps.length + 1 →
      ∃ A B, altJoin gs ps = A ++ p ++ B := by
  intro ps
  induction ps with
  | nil =>
    intro gs k p h _
    simp at h
  | cons p0 ps2 ih =>
    intro gs k p h hlen
    cases gs with
    | nil => simp at hlen
    | cons g gs2 =>
      cases k with
      | zero =>
        have hp : p0 = p := Option.some.inj h
        subst hp
        exact ⟨g, altJoin gs2 ps2, rfl⟩
      | succ k =>
        obtain ⟨A, B, hAB⟩ := ih gs2 k p h (by simpa using hlen)
        refine ⟨g ++ p0 ++ A, B, ?_⟩
        show g ++ p0 ++ altJoin gs2 ps2 = _
        rw [hAB]
        simp [List.append_assoc]

/-- A covered occurrence sits inside the literal slice. -/
theorem sliceN_split_three (t x u y : Str) (ms me : Nat) (ht : t = x ++ u ++ y)
    (hms : ms ≤ x.length) (hme : x.length + u.length ≤ me) :
    ∃ A B, sliceN t ms me = A ++ u ++ B := by
  subst ht
  unfold sliceN
  rw [List.append_assoc, List.drop_append_of_le_length hms,
    List.take_append_eq_append_take,
    List.take_all_of_le (by rw [List.length_drop]; omega),
    List.take_append_eq_append_take,
    List.take_all_of_le (by rw [List.length_drop]; omega)]
  exact ⟨x.drop ms, _, (List.append_assoc _ _ _).symm⟩

/-- Protection inside one plain-text segment: an occurrence shaped like a
URL (or like a path, relative to its preceding character) survives
`replaceExcludingUrlsAndPaths` verbatim. -/
theorem protect_seg (seg r : Str) (rg : Option Matcher) (x u y : Str)
    (hseg : seg = x ++ u ++ y)
    (hsh : urlShaped u ∨ pathShaped (prevCh seg x.length) u) :
    ∃ a b, replaceExcludingUrlsAndPaths seg r rg = a ++ u ++ b := by
  have hune : u ≠ [] := by
    intro he
    rcases hsh with h | h
    · have h8 := urlMatch_pos h
      rw [he] at h8
      simp at h8
    · have h3 := pathMatch_pos h
      rw [he] at h3
      simp at h3
  have hul : 1 ≤ u.length := List.length_pos.mpr hune
  have hcov : ∃ se : Nat × Nat,
      (se ∈ urlRanges seg ∨ se ∈ pathRanges seg)
      ∧ se.1 ≤ x.length ∧ x.length + u.length ≤ se.2 := by
    rcases hsh with hsh | hsh
    · obtain ⟨s, e, hmem, h1, h2⟩ := scan_cover (fun _ s => urlMatchAt s)
        (fun _ u => urlShaped u)
        (fun pv s n hf => by have := urlMatch_pos hf; omega)
        (fun pv u b hS => urlMatchAt_extend b hS)
        (fun pv s n p u b hf hp hdrop hS => url_containment hf hp hdrop hS)
        seg x u y hseg hune hsh seg.length 0 none (by omega) (by omega) rfl
      rw [List.drop_zero] at hmem
      exact ⟨(s, e), Or.inl hmem, h1, h2⟩
    · obtain ⟨s, e, hmem, h1, h2⟩ := scan_cover pathMatchAt pathShaped
        (fun pv s n hf => by have := pathMatch_pos hf; omega)
        (fun pv u b hS => ⟨u.length + runLen b,
          pathMatchAt_extend b hS (fun hh => hh), Nat.le_add_right _ _⟩)
        (fun pv s n p u b hf hp hdrop hS => path_containment hf hp hdrop hS)
        seg x u y hseg hune hsh seg.length 0 none (by omega) (by omega) rfl
      rw [List.drop_zero] at hmem
      exact ⟨(s, e), Or.inr hmem, h1, h2⟩
  obtain ⟨⟨s, e⟩, hmem, hs1, he1⟩ := hcov
  simp only at hs1 he1
  have hse : s < e := by omega
  have hmemI : ((s : Int), (e : Int))
      ∈ natRanges (urlRanges seg) ++ natRanges (pathRanges seg) := by
    rcases hmem with hmem | hmem
    · exact List.mem_append_left _ (List.mem_map.mpr ⟨(s, e), hmem, rfl⟩)
    · exact List.mem_append_right _ (List.mem_map.mpr ⟨(s, e), hmem, rfl⟩)
  obtain ⟨⟨ms, me⟩, hmmem, hm1, hm2⟩ := range_pipeline_covers hmemI
    (by simp) (by simpa using hse)
  simp only at hm1 hm2
  obtain ⟨hvalid, hchain1, hchain2⟩ := mergedRanges_props
    (natRanges (urlRanges seg) ++ natRanges (pathRanges seg))
  have hpw := chain_gap_pairwise _ (fun z hz => (hvalid z hz).2) hchain2
  obtain ⟨gs, hglen, _, hout⟩ := roLoop_shape seg r rg
    (mergedProtectedRanges (natRanges (urlRanges seg) ++ natRanges (pathRanges seg)))
    0 hvalid hpw (fun z hz => by
      simp only [Nat.cast_zero]
      exact (hvalid z hz).1)
  have hne2 : natRanges (urlRanges seg) ++ natRanges (pathRanges seg) ≠ [] :=
    List.ne_nil_of_mem hmemI
  have hrepl : replaceExcludingUrlsAndPaths seg r rg
      = roLoop seg r rg 0
          (mergedProtectedRanges
            (natRanges (urlRanges seg) ++ natRanges (pathRanges seg))) := by
    unfold replaceExcludingUrlsAndPaths replaceOutsideRanges
    rw [List.isEmpty_eq_false.mpr hne2]
    simp
  obtain ⟨k, hk⟩ := List.mem_iff_get?.mp hmmem
  have hkmap : ((mergedProtectedRanges
        (natRanges (urlRanges seg) ++ natRanges (pathRanges seg))).map
      (fun z => sliceN seg z.1.toNat z.2.toNat)).get? k
      = some (sliceN seg ms.toNat me.toNat) := by
    rw [List.get?_map, hk]
    rfl
  obtain ⟨A, B, hAB⟩ := altJoin_emit _
    (gs.map (fun g => replaceOpencode g r rg)) k _ hkmap
    (by rw [List.length_map, List.length_map]; exact hglen)
  have hv := hvalid (ms, me) hmmem
  simp only at hv
  have hms : ms.toNat ≤ x.length := by omega
  have hme : x.length + u.length ≤ me.toNat := by omega
  obtain ⟨A2, B2, hslice⟩ := sliceN_split_three seg x u y ms.toNat me.toNat
    hseg hms hme
  refine ⟨A ++ A2, B2 ++ B, ?_⟩
  rw [hrepl, hout, hAB, hslice]
  simp [List.append_assoc]

/-- Locating an occurrence through the backtick split: a separator-free
occurrence falls inside a single piece, and the text before it within the
piece either is empty or ends in the same character as the original
prefix. -/
theorem splitGo_locate (sep : Str) (hsb : ∀ c ∈ sep, c = btick)
    (hsep : sep ≠ []) {u : Str} (hub : btick ∉ u) (hune : u ≠ []) :
    ∀ (fuel : Nat) (acc rest x y : Str), acc ++ rest = x ++ u ++ y →
      ∃ k x1 y1, (splitGo sep fuel acc rest).get? k = some (x1 ++ u ++ y1)
        ∧ (x1 = [] ∨ x1.getLast? = x.getLast?) := by
  have hsl : 1 ≤ sep.length := List.length_pos.mpr hsep
  have hul : 1 ≤ u.length := List.length_pos.mpr hune
  intro fuel
  induction fuel with
  | zero =>
    intro acc rest x y hacc
    cases rest with
    | nil =>
      refine ⟨0, x, y, ?_, Or.inr rfl⟩
      rw [List.append_nil] at hacc
      show some acc = some (x ++ u ++ y)
      rw [hacc]
    | cons c cs =>
      refine ⟨0, x, y, ?_, Or.inr rfl⟩
      show some (acc ++ (c :: cs)) = some (x ++ u ++ y)
      rw [hacc]
  | succ fuel ih =>
    intro acc rest x y hacc
    cases rest with
    | nil =>
      refine ⟨0, x, y, ?_, Or.inr rfl⟩
      rw [List.append_nil] at hacc
      show some acc = some (x ++ u ++ y)
      rw [hacc]
    | cons c cs =>
      by_cases hpre : sep.isPrefixOf (c :: cs)
      · have hstep : splitGo sep (fuel + 1) acc (c :: cs)
            = acc :: splitGo sep fuel [] ((c :: cs).drop sep.length) := by
          rw [splitGo, if_pos hpre]
        obtain ⟨tl, htl⟩ := List.isPrefixOf_iff_prefix.mp hpre
        by_cases hA : x.length + u.length ≤ acc.length
        · have haccform : acc = x ++ u ++ y.take (acc.length - x.length - u.length) := by
            have h1 : (x ++ u ++ y).take acc.length
                = x ++ u ++ y.take (acc.length - x.length - u.length) := by
              rw [List.append_assoc, List.take_append_eq_append_take,
                List.take_all_of_le (by omega),
                List.take_append_eq_append_take,
                List.take_all_of_le (by omega), ← List.append_assoc]
            have h2 : acc = (acc ++ (c :: cs)).take acc.length :=
              (List.take_left _ _).symm
            rw [hacc] at h2
            conv_lhs => rw [h2, h1]
          refine ⟨0, x, y.take (acc.length - x.length - u.length), ?_, Or.inr rfl⟩
          rw [hstep]
          show some acc
            = some (x ++ u ++ y.take (acc.length - x.length - u.length))
          conv_lhs => rw [haccform]
        · by_cases hB : acc.length + sep.length ≤ x.length
          · have htlform : (c :: cs).drop sep.length
                = x.drop (acc.length + sep.length) ++ u ++ y := by
              have h1 : (c :: cs).drop sep.length
                  = (acc ++ (c :: cs)).drop (acc.length + sep.length) := by
                rw [← htl, ← List.append_assoc,
                  show acc.length + sep.length = (acc ++ sep).length
                    from (List.length_append _ _).symm,
                  List.drop_left, List.drop_left]
              rw [hacc] at h1
              rw [h1, List.append_assoc,
                List.drop_append_of_le_length (by omega), ← List.append_assoc]
            have hacc2 : [] ++ (c :: cs).drop sep.length
                = x.drop (acc.length + sep.length) ++ u ++ y := by
              rw [List.nil_append, htlform]
            obtain ⟨k, x1, y1, hget, hlast⟩ := ih [] ((c :: cs).drop sep.length)
              (x.drop (acc.length + sep.length)) y hacc2
            refine ⟨k + 1, x1, y1, ?_, ?_⟩
            · rw [hstep]
              exact hget
            · rcases hlast with hl | hl
              · exact Or.inl hl
              · by_cases hxd : x.drop (acc.length + sep.length) = []
                · rw [hxd] at hl
                  simp only [List.getLast?_nil] at hl
                  exact Or.inl (List.getLast?_eq_none.mp hl)
                · exact Or.inr (hl.trans (getLast?_drop_of_ne_nil hxd))
          · exfalso
            push_neg at hA hB
            have hq1 : x.length ≤ max x.length acc.length := le_max_left _ _
            have hq2 : acc.length ≤ max x.length acc.length := le_max_right _ _
            have hq3 : max x.length acc.length < x.length + u.length := by
              rcases max_cases x.length acc.length with ⟨he, _⟩ | ⟨he, _⟩ <;>
                rw [he] <;> omega
            have hq4 : max x.length acc.length < acc.length + sep.length := by
              rcases max_cases x.length acc.length with ⟨he, _⟩ | ⟨he, _⟩ <;>
                rw [he] <;> omega
            have hu1 : (x ++ u ++ y).get? (max x.length acc.length)
                = u.get? (max x.length acc.length - x.length) := by
              rw [List.append_assoc, List.get?_append_right hq1,
                List.get?_append (by omega)]
            have hs1 : (acc ++ (c :: cs)).get? (max x.length acc.length)
                = sep.get? (max x.length acc.length - acc.length) := by
              rw [← htl, List.get?_append_right hq2,
                List.get?_append (by omega)]
            have hlt : max x.length acc.length - x.length < u.length := by omega
            have hd : u.get? (max x.length acc.length - x.length)
                = some (u.get ⟨max x.length acc.length - x.length, hlt⟩) :=
              List.get?_eq_get hlt
            have hdmem : u.get ⟨max x.length acc.length - x.length, hlt⟩ ∈ u :=
              List.get_mem _ _ _
            have hsd : sep.get? (max x.length acc.length - acc.length)
                = some (u.get ⟨max x.length acc.length - x.length, hlt⟩) := by
              rw [← hs1, hacc, hu1, hd]
            have hdsep : u.get ⟨max x.length acc.length - x.length, hlt⟩ ∈ sep := by
              obtain ⟨hlt2, hget2⟩ := List.get?_eq_some.mp hsd
              rw [← hget2]
              exact List.get_mem _ _ _
            exact hub ((hsb _ hdsep) ▸ hdmem)
      · have hstep : splitGo sep (fuel + 1) acc (c :: cs)
            = splitGo sep fuel (acc ++ [c]) cs := by
          rw [splitGo, if_neg hpre]
        rw [hstep]
        refine ih (acc ++ [c]) cs x y ?_
        rw [List.append_assoc]
        simpa using hacc

/-- Every piece of a list appears literally inside its intercalation. -/
theorem intercalate_emit (sep : Str) :
    ∀ (l : List Str) (k : Nat) (p : Str), l.get? k = some p →
      ∃ A B, List.intercalate sep l = A ++ p ++ B := by
  intro l
  induction l with
  | nil =>
    intro k p h
    simp at h
  | cons s0 ss ih =>
    intro k p h
    cases k with
    | zero =>
      have hp : s0 = p := Option.some.inj h
      subst hp
      cases ss with
      | nil => exact ⟨[], [], by rw [intercalate_one]; simp⟩
      | cons s2 ss2 =>
        exact ⟨[], sep ++ List.intercalate sep (s2 :: ss2), by
          rw [intercalate_two]
          simp [List.append_assoc]⟩
    | succ k =>
      cases ss with
      | nil => simp at h
      | cons s2 ss2 =>
        obtain ⟨A, B, hAB⟩ := ih k p h
        exact ⟨s0 ++ sep ++ A, B, by
          rw [intercalate_two, hAB]
          simp [List.append_assoc]⟩

/-- Claim C1: protection invariant.  For every input text `t` and every
substring `u` of `t` that the URL pattern matches in full (an `http`/
`https` scheme followed by `://` and a nonempty token run), or that the
path pattern matches in full at its position (drive-letter, `~/`, `./` or
`../` prefix, with the `\b` of the drive alternative judged against the
character preceding `u`), the output of `replace(t, r)` contains `u`
unchanged as a contiguous substring, for every replacement string `r` and
every matcher `rg`: the protected slice of the covering match range is
copied verbatim between the replaced gap pieces of the non-code content. -/
theorem C1_protection (t r : Str) (rg : Option Matcher) (x u y : Str)
    (ht : t = x ++ u ++ y)
    (hsh : urlShaped u ∨ pathShaped x.getLast? u) :
    ∃ a b, replaceInText t r rg = a ++ u ++ b := by
  have hune : u ≠ [] := by
    intro he
    rcases hsh with h | h
    · have h8 := urlMatch_pos h
      rw [he] at h8
      simp at h8
    · have h3 := pathMatch_pos h
      rw [he] at h3
      simp at h3
  have hub : btick ∉ u := by
    intro hmem
    have htok : isTok btick = true := by
      rcases hsh with h | h
      · exact urlShaped_allTok h btick hmem
      · exact pathShaped_allTok h btick hmem
    exact absurd htok (by decide)
  have hfb : ∀ c ∈ fenceStr, c = btick := by decide
  have hfne : fenceStr ≠ [] := by decide
  have htb : ∀ c ∈ tickStr, c = btick := by decide
  have htne : tickStr ≠ [] := by decide
  obtain ⟨k, x1, y1, hget1, hlast1⟩ := splitGo_locate fenceStr hfb hfne hub hune
    t.length [] t x y (by simpa using ht)
  have hget1x : (splitOnL fenceStr t).get? k = some (x1 ++ u ++ y1) := hget1
  rw [replaceInText_eq]
  by_cases hk : k % 2 = 1
  · have hg : (mapAlternate (fun blk => replaceInInlineCodeSegments blk r rg)
        false (splitOnL fenceStr t)).get? k = some (x1 ++ u ++ y1) := by
      rw [mapAlternate_get?, hget1x]
      simp [hk]
    obtain ⟨A, B, hAB⟩ := intercalate_emit fenceStr _ k _ hg
    exact ⟨A ++ x1, y1 ++ B, by rw [hAB]; simp [List.append_assoc]⟩
  · have hg : (mapAlternate (fun blk => replaceInInlineCodeSegments blk r rg)
        false (splitOnL fenceStr t)).get? k
        = some (replaceInInlineCodeSegments (x1 ++ u ++ y1) r rg) := by
      rw [mapAlternate_get?, hget1x]
      simp [hk]
    obtain ⟨A, B, hAB⟩ := intercalate_emit fenceStr _ k _ hg
    have hmain : ∃ A2 B2,
        replaceInInlineCodeSegments (x1 ++ u ++ y1) r rg = A2 ++ u ++ B2 := by
      obtain ⟨k2, x2, y2, hget2, hlast2⟩ := splitGo_locate tickStr htb htne hub
        hune (x1 ++ u ++ y1).length [] (x1 ++ u ++ y1) x1 y1 (by simp)
      have hget2x : (splitOnL tickStr (x1 ++ u ++ y1)).get? k2
          = some (x2 ++ u ++ y2) := hget2
      by_cases hk2 : k2 % 2 = 1
      · have hg2 : (mapAlternate (fun seg => replaceExcludingUrlsAndPaths seg r rg)
            false (splitOnL tickStr (x1 ++ u ++ y1))).get? k2
            = some (x2 ++ u ++ y2) := by
          rw [mapAlternate_get?, hget2x]
          simp [hk2]
        obtain ⟨A2, B2, hAB2⟩ := intercalate_emit tickStr _ k2 _ hg2
        refine ⟨A2 ++ x2, y2 ++ B2, ?_⟩
        unfold replaceInInlineCodeSegments
        rw [hAB2]
        simp [List.append_assoc]
      · have hg2 : (mapAlternate (fun seg => replaceExcludingUrlsAndPaths seg r rg)
            false (splitOnL tickStr (x1 ++ u ++ y1))).get? k2
            = some (replaceExcludingUrlsAndPaths (x2 ++ u ++ y2) r rg) := by
          rw [mapAlternate_get?, hget2x]
          simp [hk2]
        obtain ⟨A2, B2, hAB2⟩ := intercalate_emit tickStr _ k2 _ hg2
        have hsh2 : urlShaped u ∨ pathShaped (prevCh (x2 ++ u ++ y2) x2.length) u := by
          rcases hsh with hurl | hpath
          · exact Or.inl hurl
          · refine Or.inr ?_
            by_cases hx2 : x2 = []
            · subst hx2
              exact pathShaped_mono hpath
            · rw [List.append_assoc, prevCh_append x2 (u ++ y2) hx2]
              rcases hlast2 with hl2 | hl2
              · exact absurd hl2 hx2
              · rcases hlast1 with hl1 | hl1
                · rw [hl1] at hl2
                  simp only [List.getLast?_nil] at hl2
                  exact absurd (List.getLast?_eq_none.mp hl2) hx2
                · rw [hl2, hl1]
                  exact hpath
        obtain ⟨a3, b3, hseg⟩ := protect_seg (x2 ++ u ++ y2) r rg x2 u y2 rfl hsh2
        refine ⟨A2 ++ a3, b3 ++ B2, ?_⟩
        unfold replaceInInlineCodeSegments
        rw [hAB2, hseg]
        simp [List.append_assoc]
    obtain ⟨A2, B2, hAB2⟩ := hmain
    exact ⟨A ++ A2, B2 ++ B, by rw [hAB, hAB2]; simp [List.append_assoc]⟩

/-- Witness for C1: a concrete URL inside plain text and a concrete
relative path after a word boundary both survive a replacement run
verbatim. -/
theorem C1_protection_witness :
    (∃ a b, replaceInText (("see https://x.ai now").toList) (("R").toList) none
      = a ++ ("https://x.ai").toList ++ b)
    ∧ (∃ a b, replaceInText (("run ./opencode/bin x").toList) (("R").toList) none
      = a ++ ("./opencode/bin").toList ++ b) :=
  ⟨C1_protection (("see https://x.ai now").toList) (("R").toList) none
      (("see ").toList) (("https://x.ai").toList) ((" now").toList)
      (by decide)
      (Or.inl (show urlMatchAt (("https://x.ai").toList)
        = some (("https://x.ai").toList).length from by decide)),
   C1_protection (("run ./opencode/bin x").toList) (("R").toList) none
      (("run ").toList) (("./opencode/bin").toList) ((" x").toList)
      (by decide)
      (Or.inr (show pathMatchAt (("run ").toList.getLast?)
          (("./opencode/bin").toList)
        = some (("./opencode/bin").toList).length from by decide))⟩

end Renamer
